import Mathlib

/-!
# Tiger streaming engine (`tiger.go`)

A shallow embedding of the streaming part of the Tiger hash package:
the `digest` record, `Reset`, `New`, `New2`, `Write` and `Sum`.

Conventions of the embedding

* `uint64` values are natural numbers; every arithmetic step that can wrap in
  Go is reduced modulo `2^64` explicitly.
* `int` values (`nx`, `ver`, slice bounds) are integers.  No `int` expression
  of `Write` or `Sum` can leave the 64-bit range: they are all bounded by
  `chunk` or by the length of a slice.
* a `byte` is a natural number; bytes produced by a conversion `byte(e)` are
  reduced modulo `256`.
* the array `[chunk]byte` is a list together with a proof that it has 64
  entries; a slice `[]byte` is a list.
* a Go run-time panic (index or slice bound out of range, or the explicit
  `panic` of `Sum`) is the result `none`.
* the compression function lives in another file of the package; the
  one-block compression is a parameter `blk` of the embedding.
-/

namespace Tiger

/-- The size of a Tiger hash value in bytes (`const Size = 24`). -/
def Size : Nat := 24

/-- The block size of the hash in bytes (`const BlockSize = 64`). -/
def BlockSize : Nat := 64

/-- Go constant `chunk = 64`. -/
@[reducible] def chunk : Nat := 64

/-- Go constant `initA`. -/
def initA : Nat := 0x0123456789abcdef

/-- Go constant `initB`. -/
def initB : Nat := 0xfedcba9876543210

/-- Go constant `initC`. -/
def initC : Nat := 0xf096a5b4c3b2e187

/-- The Go array type `[chunk]byte`: a list of exactly 64 bytes. -/
abbrev Buf : Type := { l : List Nat // l.length = 64 }

/-- The all-zero array, the zero value of `[chunk]byte`. -/
def Buf.zero : Buf := ⟨List.replicate 64 0, by simp⟩

/-- The Go struct `digest`. -/
structure digest where
  a : Nat
  b : Nat
  c : Nat
  x : Buf
  nx : Int
  length : Nat
  ver : Int
deriving DecidableEq

/-- The three state words `(a, b, c)`. -/
abbrev Words : Type := Nat × Nat × Nat

/-- The type of the one-block compression: it reads the three words and the
64 bytes of one block and returns the three new words. -/
abbrev Core : Type := Words → List Nat → Words

/-- The words of a digest. -/
def digest.words (d : digest) : Words := (d.a, d.b, d.c)

/-- Successive one-block applications: `compressN blk k s p` applies `blk` to
the first `k` consecutive 64-byte windows of `p`, starting from `s`. -/
def compressN (blk : Core) : Nat → Words → List Nat → Words
  | 0, s, _ => s
  | k + 1, s, p => compressN blk k (blk s (p.take 64)) (p.drop 64)

/-- Modelled from the spec: `compress(d, p)` is defined outside `tiger.go`.
It reads only `d.a, d.b, d.c` and the bytes of `p`, consumes `p` one 64-byte
block at a time while at least 64 bytes remain, and stores the resulting three
words back into `d.a, d.b, d.c`; no other field of `d` changes. -/
def compress (blk : Core) (d : digest) (p : List Nat) : digest :=
  let s := compressN blk (p.length / 64) (d.a, d.b, d.c) p
  { d with a := s.1, b := s.2.1, c := s.2.2 }

/-- `Reset` (lines 30-36). -/
def Reset (d : digest) : digest :=
  { d with a := initA, b := initB, c := initC, nx := 0, length := 0 }

/-- The value `new(digest)`: every field zero. -/
def digest.zero : digest :=
  { a := 0, b := 0, c := 0, x := Buf.zero, nx := 0, length := 0, ver := 0 }

/-- `New` (lines 39-44). -/
def New : digest :=
  let d := digest.zero
  let d := Reset d
  { d with ver := 1 }

/-- `New2` (lines 47-52). -/
def New2 : digest :=
  let d := digest.zero
  let d := Reset d
  { d with ver := 2 }

/-- The slice expression `p[n:]` for an `int` bound `n`; it panics unless
`0 ≤ n ≤ len(p)`. -/
def sliceFrom (p : List Nat) (n : Int) : Option (List Nat) :=
  if 0 ≤ n ∧ n ≤ (p.length : Int) then some (p.drop n.toNat) else none

/-- The slice expression `p[:n]` for an `int` bound `n`; it panics unless
`0 ≤ n ≤ len(p)`. -/
def sliceTo (p : List Nat) (n : Int) : Option (List Nat) :=
  if 0 ≤ n ∧ n ≤ (p.length : Int) then some (p.take n.toNat) else none

/-- The loop of lines 70-72, `for i := 0; i < n; i++ { d.x[d.nx+i] = p[i] }`.
`storeLoop p nx k i x` runs the `k` remaining iterations starting at index
`i`.  A store outside `[0, 64)` or a read outside `p` panics. -/
def storeLoop (p : List Nat) (nx : Int) : Nat → Nat → Buf → Option Buf
  | 0, _, x => some x
  | k + 1, i, x =>
    if 0 ≤ nx + (i : Int) ∧ nx + (i : Int) < 64 ∧ i < p.length then
      storeLoop p nx k (i + 1)
        ⟨x.val.set (nx + (i : Int)).toNat (p.getD i 0), by simp [x.property]⟩
    else none

/-- The builtin `copy(d.x[:], p)`: it copies `min(64, len(p))` bytes to the
front of the array and returns that number. -/
def copy (x : Buf) (p : List Nat) : Buf × Int :=
  (⟨p.take 64 ++ x.val.drop (min 64 p.length), by
      have := x.property
      simp only [List.length_append, List.length_take, List.length_drop]
      omega⟩,
   ((min 64 p.length : Nat) : Int))

/-- Lines 65-79 of `Write`: complete the partially filled buffer.  Returns the
new state and the rest of `p`. -/
def writeFill (blk : Core) (d : digest) (p : List Nat) : Option (digest × List Nat) :=
  if d.nx > 0 then
    let n : Int := p.length
    let n : Int := if n > (chunk : Int) - d.nx then (chunk : Int) - d.nx else n
    (storeLoop p d.nx n.toNat 0 d.x).bind fun x =>
      let d := { d with x := x }
      let d := { d with nx := d.nx + n }
      let d := if d.nx = (chunk : Int) then
                 let d := compress blk d (d.x.val.take chunk)
                 { d with nx := 0 }
               else d
      (sliceFrom p n).bind fun p => some (d, p)
  else some (d, p)

/-- Lines 80-84 of `Write`: hand all whole blocks of `p` to `compress`.
`len(p) &^ (chunk - 1)` clears the six low bits of `len(p)`, which is
`len(p) - len(p) % 64`. -/
def writeBlocks (blk : Core) (d : digest) (p : List Nat) : Option (digest × List Nat) :=
  if p.length ≥ chunk then
    let n : Int := ((p.length - p.length % 64 : Nat) : Int)
    (sliceTo p n).bind fun q =>
      let d := compress blk d q
      (sliceFrom p n).bind fun p => some (d, p)
  else some (d, p)

/-- Lines 85-87 of `Write`: keep the remainder in the buffer. -/
def writeRest (d : digest) (p : List Nat) : digest :=
  if p.length > 0 then { d with nx := (copy d.x p).2, x := (copy d.x p).1 } else d

/-- `Write` (lines 62-89).  The result is the new state of the receiver with
the two return values `nn` and `err` (`none` is `nil`). -/
def Write (blk : Core) (d : digest) (p : List Nat) :
    Option (digest × Int × Option String) :=
  let nn : Int := p.length
  let d := { d with length := (d.length + p.length) % 2 ^ 64 }
  (writeFill blk d p).bind fun r =>
    (writeBlocks blk r.1 r.2).bind fun r =>
      some (writeRest r.1 r.2, nn, none)

/-- The state of the receiver after `d.Write(p)`, the return values dropped. -/
def write (blk : Core) (d : digest) (p : List Nat) : Option digest :=
  (Write blk d p).map fun r => r.1

/-- Lines 95-101 of `Sum`: the array `tmp` with the terminator byte. -/
def sumTmp (d : digest) : List Nat :=
  let tmp : List Nat := List.replicate 64 0
  if d.ver = 1 then tmp.set 0 0x01 else tmp.set 0 0x80

/-- The upper bound of the padding slice (lines 103-107), computed in
`uint64`: `56 - length&0x3f` or `64 + 56 - length&0x3f`, where `&` binds
tighter than `-`. -/
def padLen (length : Nat) : Nat :=
  if length &&& 0x3f < 56 then
    (56 + 2 ^ 64 - (length &&& 0x3f)) % 2 ^ 64
  else
    (64 + 56 + 2 ^ 64 - (length &&& 0x3f)) % 2 ^ 64

/-- The slice `tmp[0:k]` of the 64-byte array `tmp`; it panics unless
`k ≤ 64`. -/
def tmpSlice (tmp : List Nat) (k : Nat) : Option (List Nat) :=
  if k ≤ 64 then some (tmp.take k) else none

/-- The padding bytes handed to the first `Write` of `Sum`
(lines 94-107). -/
def sumPad (d : digest) : Option (List Nat) :=
  tmpSlice (sumTmp d) (padLen d.length)

/-- Lines 109-112 of `Sum`: the shifted length is stored byte by byte in
`tmp[0..8)`. -/
def putLength (tmp : List Nat) (length : Nat) : List Nat :=
  let length := (length <<< 3) % 2 ^ 64
  (List.range 8).foldl (fun t i => t.set i ((length >>> (8 * i)) % 256)) tmp

/-- The eight bytes handed to the second `Write` of `Sum` (line 113). -/
def sumLen (d : digest) : Option (List Nat) :=
  tmpSlice (putLength (sumTmp d) d.length) 8

/-- Lines 92-113 of `Sum`: the private copy `d` after the padding and the
length field have been written to it. -/
def sumPadded (blk : Core) (d0 : digest) : Option digest :=
  let d := d0
  (sumPad d).bind fun pad =>
    (write blk d pad).bind fun d1 =>
      (sumLen d).bind fun len8 =>
        write blk d1 len8

/-- Lines 119-123 of `Sum`: the three words are stored byte by byte in
`tmp[0..24)`. -/
def putWords (tmp : List Nat) (d : digest) : List Nat :=
  (List.range 8).foldl
    (fun t i =>
      let t := t.set i ((d.a >>> (8 * i)) % 256)
      let t := t.set (i + 8) ((d.b >>> (8 * i)) % 256)
      t.set (i + 16) ((d.c >>> (8 * i)) % 256))
    tmp

/-- `Sum` (lines 91-126).  The result is the final state of the receiver
`d0` together with the returned slice; `none` is a panic. -/
def Sum (blk : Core) (d0 : digest) (inp : List Nat) : Option (digest × List Nat) :=
  (sumPadded blk d0).bind fun d =>
    if d.nx ≠ 0 then none
    else
      let tmp := putWords (putLength (sumTmp d0) d0.length) d
      (tmpSlice tmp 24).bind fun t => some (d0, inp ++ t)

/-- The returned slice of `d.Sum(inp)`. -/
def sum (blk : Core) (d : digest) (inp : List Nat) : Option (List Nat) :=
  (Sum blk d inp).map fun r => r.2

/-- Write the chunks one after the other. -/
def writeAll (blk : Core) : digest → List (List Nat) → Option digest
  | d, [] => some d
  | d, p :: ps => (write blk d p).bind fun d1 => writeAll blk d1 ps

/-- The bytes waiting in the buffer: `d.x[0:d.nx]`. -/
def pending (d : digest) : List Nat := d.x.val.take d.nx.toNat

/-- The observable part of a state: words, fill count, pending bytes, byte
counter and variant. -/
def Fields (d : digest) (w : Words) (nx : Int) (pend : List Nat) (len : Nat)
    (ver : Int) : Prop :=
  d.words = w ∧ d.nx = nx ∧ pending d = pend ∧ d.length = len ∧ d.ver = ver

/-- The little-endian encoding of a 64-bit word: byte `i` is
`byte(v >> (8*i))`, least significant byte first. -/
def le64 (v : Nat) : List Nat :=
  (List.range 8).map fun i => (v >>> (8 * i)) % 256

/-- The 24 digest bytes of three words: `a`, `b`, `c`, each little-endian. -/
def wordBytes (w : Words) : List Nat :=
  le64 w.1 ++ le64 w.2.1 ++ le64 w.2.2

/-- The terminator byte of a variant: `0x01` for `ver = 1`, else `0x80`. -/
def terminator (ver : Int) : Nat :=
  if ver = 1 then 0x01 else 0x80

/-- The number of zero bytes between the terminator and the length field of
a message of `n` bytes. -/
def zeroCount (n : Nat) : Nat :=
  (64 - (n + 1 + 8) % 64) % 64

/-- The padded message: `M`, the terminator, the zero bytes and the
little-endian bit length modulo `2^64`. -/
def padded (ver : Int) (M : List Nat) : List Nat :=
  M ++ [terminator ver] ++ List.replicate (zeroCount M.length) 0
    ++ le64 ((8 * M.length) % 2 ^ 64)

/-- The words obtained by applying the one-block compression successively to
the 64-byte blocks of `L`, starting from `(initA, initB, initC)`. -/
def hashBlocks (blk : Core) (L : List Nat) : Words :=
  compressN blk (L.length / 64) (initA, initB, initC) L

/-- The state `d` of variant `ver` has been fed exactly the bytes `M` since it
was last fresh: the words have absorbed the whole blocks of `M`, the rest of
`M` is pending, and the counter is `len(M)` modulo `2^64`. -/
def Absorbed (blk : Core) (ver : Int) (d : digest) (M : List Nat) : Prop :=
  Fields d (hashBlocks blk M) ((M.length % 64 : Nat) : Int)
    (M.drop (M.length - M.length % 64)) (M.length % 2 ^ 64) ver

/-- The states reachable from `d0` by any finite sequence of `Write`, `Reset`
and `Sum` calls that return. -/
inductive Reachable (blk : Core) (d0 : digest) : digest → Prop
  | init : Reachable blk d0 d0
  | write (d : digest) (p : List Nat) (d1 : digest) (r : Int × Option String) :
      Reachable blk d0 d → Write blk d p = some (d1, r) → Reachable blk d0 d1
  | reset (d : digest) : Reachable blk d0 d → Reachable blk d0 (Reset d)
  | sum (d : digest) (inp : List Nat) (d1 : digest) (out : List Nat) :
      Reachable blk d0 d → Sum blk d inp = some (d1, out) → Reachable blk d0 d1

/-- A small concrete block function, used to run the embedding on examples. -/
def toyBlk : Core := fun s p =>
  ((s.1 + p.sum) % 2 ^ 64, (3 * s.2.1 + s.2.2 + p.headD 0) % 2 ^ 64,
   (s.2.2 + 7 * s.1 + p.length) % 2 ^ 64)

/-- The slice `Sum([7])` returns on `sampleState` under `toyBlk`. -/
def sampleOut : List Nat :=
  [7, 14, 206, 171, 137, 103, 69, 35, 1, 184, 119, 175, 38, 126, 213, 44, 237, 80, 131, 101,
    135, 137, 139, 141, 248]

/-- A state in the middle of a stream: `New()` after `Write` of three bytes
under `toyBlk`. -/
def sampleState : digest :=
  { New with x := ⟨[1, 2, 3] ++ List.replicate 61 0, by simp⟩, nx := 3, length := 3 }

/-- Two states agree on everything `Write` and `Sum` can read: the words, the
fill count, the counter, the variant and the buffer bytes `x[0:nx]`.  The
bytes `x[nx:64]` may differ. -/
def Agree (d1 d2 : digest) : Prop :=
  d1.a = d2.a ∧ d1.b = d2.b ∧ d1.c = d2.c ∧ d1.nx = d2.nx ∧ d1.length = d2.length ∧
    d1.ver = d2.ver ∧ d1.x.val.take d1.nx.toNat = d2.x.val.take d2.nx.toNat

/-- A state whose counter holds the largest 64-bit value: `2^64 - 1` bytes
have been fed, 63 of them are pending. -/
def wrapState : digest :=
  { New with nx := 63, length := 2 ^ 64 - 1 }

/-- The state `sampleState` with other bytes in the unused part `x[3:64]` of
the buffer. -/
def staleState : digest :=
  { sampleState with x := ⟨[1, 2, 3] ++ List.replicate 61 9, by simp⟩ }

/-- The state of `New()` after 55 zero bytes have been fed. -/
def fed55 : digest :=
  { New with nx := 55, length := 55 }

/-- The state of `New()` after 63 zero bytes have been fed. -/
def fed63 : digest :=
  { New with nx := 63, length := 63 }

/-! ## Successive one-block applications -/

theorem compressN_append (blk : Core) :
    ∀ (k1 k2 : Nat) (s : Words) (A B : List Nat), A.length = 64 * k1 →
      compressN blk (k1 + k2) s (A ++ B) = compressN blk k2 (compressN blk k1 s A) B
  | 0, k2, s, A, B, h => by
    have hA : A = [] := List.length_eq_zero.mp (by omega)
    subst hA
    simp [compressN]
  | k1 + 1, k2, s, A, B, h => by
    have e : k1 + 1 + k2 = (k1 + k2) + 1 := by omega
    rw [e]
    simp only [compressN]
    have h1 : (A ++ B).take 64 = A.take 64 := List.take_append_of_le_length (by omega)
    have h2 : (A ++ B).drop 64 = A.drop 64 ++ B := List.drop_append_of_le_length (by omega)
    rw [h1, h2]
    exact compressN_append blk k1 k2 (blk s (A.take 64)) (A.drop 64) B
      (by rw [List.length_drop]; omega)

theorem compressN_append_left (blk : Core) (k : Nat) (s : Words) (A B : List Nat)
    (h : A.length = 64 * k) : compressN blk k s (A ++ B) = compressN blk k s A := by
  have := compressN_append blk k 0 s A B h
  simpa [compressN] using this

theorem compressN_take (blk : Core) (k n : Nat) (s : Words) (p : List Nat)
    (h1 : 64 * k ≤ n) (h2 : 64 * k ≤ p.length) :
    compressN blk k s (p.take n) = compressN blk k s p := by
  have e1 : p = p.take (64 * k) ++ p.drop (64 * k) := (List.take_append_drop _ _).symm
  have e2 : p.take n = p.take (64 * k) ++ (p.drop (64 * k)).take (n - 64 * k) := by
    have : n = 64 * k + (n - 64 * k) := by omega
    conv_lhs => rw [this, List.take_add]
  have hl : (p.take (64 * k)).length = 64 * k := by
    rw [List.length_take]; omega
  rw [e2, compressN_append_left blk k s _ _ hl]
  conv_rhs => rw [e1, compressN_append_left blk k s _ _ hl]

/-! ## The store loop -/

theorem storeLoop_spec (p : List Nat) (m : Nat) :
    ∀ (k i : Nat) (x : Buf), m + i + k ≤ 64 → i + k ≤ p.length →
      ∃ x1 : Buf, storeLoop p (m : Int) k i x = some x1 ∧
        x1.val.take (m + i + k) = x.val.take (m + i) ++ (p.drop i).take k
  | 0, i, x, _, _ => ⟨x, rfl, by simp⟩
  | k + 1, i, x, h1, h2 => by
    have hx := x.property
    have hc : 0 ≤ (m : Int) + (i : Int) ∧ (m : Int) + (i : Int) < 64 ∧ i < p.length := by
      refine ⟨by omega, by omega, by omega⟩
    have ht : ((m : Int) + (i : Int)).toNat = m + i := by omega
    obtain ⟨x1, e1, e2⟩ := storeLoop_spec p m k (i + 1)
      ⟨x.val.set (m + i) (p.getD i 0), by simp [hx]⟩ (by omega) (by omega)
    refine ⟨x1, ?_, ?_⟩
    · simp only [storeLoop, hc, and_self, if_true, ht]
      exact e1
    · have e3 : m + i + (k + 1) = m + (i + 1) + k := by omega
      rw [e3, e2]
      have hi : i < p.length := by omega
      have e4 : (x.val.set (m + i) (p.getD i 0)).take (m + (i + 1))
          = x.val.take (m + i) ++ [p.getD i 0] := by
        rw [List.set_eq_take_append_cons_drop, if_pos (by omega)]
        have hl : (x.val.take (m + i)).length = m + i := by
          rw [List.length_take]; omega
        have : m + (i + 1) = (x.val.take (m + i)).length + 1 := by omega
        rw [this, List.take_append]
        simp
      have e5 : (p.drop i).take (k + 1) = p.getD i 0 :: (p.drop (i + 1)).take k := by
        have hg : p.getD i 0 = p[i] := by
          simp [List.getD_eq_getElem?_getD, List.getElem?_eq_getElem hi]
        rw [hg, List.drop_eq_getElem_cons hi, List.take_succ_cons]
      simp only [e4, e5, List.append_assoc, List.singleton_append]

/-! ## The three parts of `Write` -/

theorem writeBlocks_eq (blk : Core) (d : digest) (p : List Nat) :
    writeBlocks blk d p = some (compress blk d p, p.drop (p.length - p.length % 64)) := by
  unfold writeBlocks
  by_cases h : p.length ≥ chunk
  · have hn : (0 : Int) ≤ ((p.length - p.length % 64 : Nat) : Int) ∧
        ((p.length - p.length % 64 : Nat) : Int) ≤ (p.length : Int) := by
      constructor <;> omega
    simp only [h, if_true, sliceTo, sliceFrom, hn, and_self, Option.some_bind, Int.toNat_ofNat]
    have hk : (p.take (p.length - p.length % 64)).length / 64 = p.length / 64 := by
      rw [List.length_take]; omega
    have : compress blk d (p.take (p.length - p.length % 64)) = compress blk d p := by
      unfold compress
      simp only [hk]
      rw [compressN_take blk _ _ _ _ (by omega) (by omega)]
    rw [this]
  · have h64 : p.length < 64 := by simpa [chunk] using h
    have h0 : p.length / 64 = 0 := by omega
    have hm : p.length - p.length % 64 = 0 := by omega
    simp only [h, if_false, hm, List.drop_zero]
    simp [compress, h0, compressN]

theorem compress_fields (blk : Core) (d : digest) (p : List Nat) :
    (compress blk d p).words = compressN blk (p.length / 64) d.words p ∧
      (compress blk d p).nx = d.nx ∧ (compress blk d p).x = d.x ∧
      (compress blk d p).length = d.length ∧ (compress blk d p).ver = d.ver :=
  ⟨rfl, rfl, rfl, rfl, rfl⟩

theorem writeRest_nil (d : digest) : writeRest d [] = d := by
  simp [writeRest]

theorem writeRest_fields (d : digest) (r : List Nat) (h0 : r ≠ []) (h : r.length < 64) :
    Fields (writeRest d r) d.words (r.length : Int) r d.length d.ver := by
  have hpos : r.length > 0 := List.length_pos.mpr h0
  have hmin : min 64 r.length = r.length := by omega
  unfold writeRest
  simp only [hpos, if_true, copy, hmin]
  refine ⟨rfl, rfl, ?_, rfl, rfl⟩
  simp only [pending, Int.toNat_ofNat]
  rw [List.take_of_length_le (by omega : r.length ≤ 64)]
  exact List.take_left' rfl

theorem writeTail_spec (blk : Core) (d : digest) (r : List Nat) (h : d.nx = 0) :
    ∃ d2, ((writeBlocks blk d r).bind fun q => some (writeRest q.1 q.2)) = some d2 ∧
      Fields d2 (compressN blk (r.length / 64) d.words r) ((r.length % 64 : Nat) : Int)
        (r.drop (r.length - r.length % 64)) d.length d.ver := by
  rw [writeBlocks_eq]
  simp only [Option.some_bind]
  refine ⟨_, rfl, ?_⟩
  by_cases hr : r.drop (r.length - r.length % 64) = []
  · rw [hr, writeRest_nil]
    have hl : (r.drop (r.length - r.length % 64)).length = 0 := by rw [hr]; rfl
    rw [List.length_drop] at hl
    have h0 : r.length % 64 = 0 := by omega
    refine ⟨rfl, ?_, ?_, rfl, rfl⟩
    · show d.nx = _
      rw [h, h0]; rfl
    · show List.take (d.nx.toNat) _ = _
      rw [h]; rfl
  · have hl : (r.drop (r.length - r.length % 64)).length = r.length % 64 := by
      rw [List.length_drop]; omega
    have := writeRest_fields (compress blk d r) _ hr (by rw [hl]; omega)
    rw [hl] at this
    exact this

theorem writeFill_zero (blk : Core) (d : digest) (p : List Nat) (h : d.nx = 0) :
    writeFill blk d p = some (d, p) := by
  simp [writeFill, h]

theorem writeFill_short (blk : Core) (d : digest) (p : List Nat) (m : Nat)
    (h : d.nx = (m : Int)) (hm : 0 < m) (hs : m + p.length < 64) :
    ∃ d1, writeFill blk d p = some (d1, []) ∧
      Fields d1 d.words ((m + p.length : Nat) : Int) (pending d ++ p) d.length d.ver := by
  obtain ⟨x1, e1, e2⟩ := storeLoop_spec p m p.length 0 d.x (by omega) (by omega)
  have hpos : d.nx > 0 := by omega
  have hn : ¬ ((p.length : Int) > (chunk : Int) - d.nx) := by
    simp only [chunk]; omega
  have hne : ¬ (d.nx + (p.length : Int) = (chunk : Int)) := by
    simp only [chunk]; omega
  have hsl : (0 : Int) ≤ (p.length : Int) ∧ (p.length : Int) ≤ (p.length : Int) := by
    constructor <;> omega
  refine ⟨{ d with x := x1, nx := d.nx + (p.length : Int) }, ?_, ?_⟩
  · unfold writeFill
    simp only [hpos, if_true, hn, if_false, Int.toNat_ofNat]
    have e1h : storeLoop p d.nx p.length 0 d.x = some x1 := by rw [h]; exact e1
    rw [e1h]
    simp only [Option.some_bind]
    simp only [hne, if_false, sliceFrom, hsl, and_self, if_true, Int.toNat_ofNat,
      List.drop_length, Option.some_bind]
  · refine ⟨rfl, ?_, ?_, rfl, rfl⟩
    · show d.nx + (p.length : Int) = _
      rw [h]; omega
    · show List.take (d.nx + (p.length : Int)).toNat x1.val = List.take d.nx.toNat d.x.val ++ p
      have t1 : (d.nx + (p.length : Int)).toNat = m + 0 + p.length := by omega
      have t2 : d.nx.toNat = m + 0 := by omega
      rw [t1, t2, e2]
      simp

theorem writeFill_full (blk : Core) (d : digest) (p : List Nat) (m : Nat)
    (h : d.nx = (m : Int)) (hm : 0 < m) (hm64 : m < 64) (hs : 64 ≤ m + p.length) :
    ∃ d1, writeFill blk d p = some (d1, p.drop (64 - m)) ∧
      Fields d1 (blk d.words (pending d ++ p.take (64 - m))) 0 [] d.length d.ver := by
  obtain ⟨x1, e1, e2⟩ := storeLoop_spec p m (64 - m) 0 d.x (by omega) (by omega)
  have hpos : d.nx > 0 := by omega
  have hx1 := x1.property
  have hfull : x1.val = pending d ++ p.take (64 - m) := by
    have t : m + 0 + (64 - m) = 64 := by omega
    rw [t, List.take_of_length_le (by omega)] at e2
    rw [e2]
    simp only [pending, h, Int.toNat_ofNat, Nat.add_zero, List.drop_zero]
  have hn : (if (p.length : Int) > (chunk : Int) - d.nx then (chunk : Int) - d.nx
      else (p.length : Int)) = ((64 - m : Nat) : Int) := by
    simp only [chunk]
    split <;> omega
  have hsl : (0 : Int) ≤ ((64 - m : Nat) : Int) ∧ ((64 - m : Nat) : Int) ≤ (p.length : Int) := by
    constructor <;> omega
  have heq : d.nx + ((64 - m : Nat) : Int) = (chunk : Int) := by
    simp only [chunk]; omega
  refine ⟨{ compress blk { d with x := x1, nx := d.nx + ((64 - m : Nat) : Int) }
      (x1.val.take chunk) with nx := 0 }, ?_, ?_⟩
  · unfold writeFill
    simp only [hpos, if_true, hn, Int.toNat_ofNat]
    have e1h : storeLoop p d.nx (64 - m) 0 d.x = some x1 := by rw [h]; exact e1
    rw [e1h]
    simp only [Option.some_bind]
    simp only [heq, if_true, sliceFrom, hsl, and_self, Int.toNat_ofNat, Option.some_bind]
  · refine ⟨?_, rfl, ?_, rfl, rfl⟩
    · show compressN blk ((x1.val.take chunk).length / 64) d.words (x1.val.take chunk) = _
      have t : x1.val.take chunk = x1.val := List.take_of_length_le (by simp [chunk, hx1])
      have k : x1.val.length / 64 = 1 := by rw [hx1]
      rw [t, k]
      simp only [compressN]
      rw [List.take_of_length_le (by omega), hfull]
    · show List.take (0 : Int).toNat _ = []
      rfl

/-- What `Write` does to a state whose fill count lies in `[0, 64)`: with
`T` the pending bytes followed by `p`, the words absorb the whole 64-byte
windows of `T`, the rest of `T` stays pending, and the counter grows by
`len(p)` modulo `2^64`. -/
theorem Write_spec (blk : Core) (d : digest) (p : List Nat) (h0 : 0 ≤ d.nx) (h1 : d.nx < 64) :
    ∃ d1, Write blk d p = some (d1, (p.length : Int), none) ∧
      Fields d1 (compressN blk ((pending d ++ p).length / 64) d.words (pending d ++ p))
        (((pending d ++ p).length % 64 : Nat) : Int)
        ((pending d ++ p).drop ((pending d ++ p).length - (pending d ++ p).length % 64))
        ((d.length + p.length) % 2 ^ 64) d.ver := by
  obtain ⟨m, hm⟩ : ∃ m : Nat, d.nx = (m : Int) := ⟨d.nx.toNat, by omega⟩
  have hm64 : m < 64 := by omega
  have hx := d.x.property
  have hpl : (pending d).length = m := by
    simp only [pending, hm, Int.toNat_ofNat, List.length_take]; omega
  -- the state after line 64
  obtain ⟨dl, hdl⟩ : ∃ dl : digest, dl = { d with length := (d.length + p.length) % 2 ^ 64 } :=
    ⟨_, rfl⟩
  have hW : Write blk d p = (writeFill blk dl p).bind fun r =>
      (writeBlocks blk r.1 r.2).bind fun r => some (writeRest r.1 r.2, (p.length : Int), none) := by
    rw [hdl]; rfl
  have hdlw : dl.words = d.words := by rw [hdl]; rfl
  have hdlp : pending dl = pending d := by rw [hdl]; rfl
  have hdln : dl.nx = (m : Int) := by rw [hdl]; exact hm
  have hdll : dl.length = (d.length + p.length) % 2 ^ 64 := by rw [hdl]
  have hdlv : dl.ver = d.ver := by rw [hdl]
  rw [hW]
  -- the tail of `Write` in terms of `writeTail_spec`
  have tail : ∀ (d1 : digest) (r : List Nat),
      ((writeBlocks blk d1 r).bind fun r => some (writeRest r.1 r.2, (p.length : Int),
        (none : Option String)))
      = ((writeBlocks blk d1 r).bind fun q => some (writeRest q.1 q.2)).map
          fun d2 => (d2, (p.length : Int), none) := by
    intro d1 r
    rw [writeBlocks_eq]; rfl
  rcases Nat.eq_zero_or_pos m with hz | hpos
  · subst hz
    have hpn : pending d = [] := List.length_eq_zero.mp hpl
    rw [writeFill_zero blk dl p hdln]
    simp only [Option.some_bind]
    rw [tail]
    obtain ⟨d2, e, f⟩ := writeTail_spec blk dl p hdln
    rw [e]
    refine ⟨d2, rfl, ?_⟩
    rw [hpn, List.nil_append]
    rw [hdlw, hdll, hdlv] at f
    exact f
  · by_cases hs : m + p.length < 64
    · obtain ⟨d1, e, f⟩ := writeFill_short blk dl p m hdln hpos hs
      rw [e]
      simp only [Option.some_bind]
      rw [writeBlocks_eq]
      simp only [Option.some_bind, List.length_nil, Nat.zero_mod, Nat.sub_zero, List.drop_zero,
        writeRest_nil]
      have hc : compress blk d1 [] = d1 := by simp [compress, compressN]
      rw [hc]
      refine ⟨d1, rfl, ?_⟩
      have hT : (pending d ++ p).length = m + p.length := by
        rw [List.length_append, hpl]
      have q0 : (m + p.length) / 64 = 0 := by omega
      have q1 : (m + p.length) % 64 = m + p.length := by omega
      rw [hT, q0, q1, Nat.sub_self, List.drop_zero]
      simp only [compressN]
      rw [hdlw, hdlp, hdll, hdlv] at f
      exact f
    · obtain ⟨d1, e, f⟩ := writeFill_full blk dl p m hdln hpos hm64 (by omega)
      rw [e]
      simp only [Option.some_bind]
      rw [tail]
      obtain ⟨d2, e2, f2⟩ := writeTail_spec blk d1 (p.drop (64 - m)) f.2.1
      rw [e2]
      refine ⟨d2, rfl, ?_⟩
      obtain ⟨fw, fn, fp, fl, fv⟩ := f
      rw [fw, fl, fv, hdlw, hdlp, hdll, hdlv] at f2
      -- split `T` into its first block and the rest
      have hsplit : pending d ++ p = (pending d ++ p.take (64 - m)) ++ p.drop (64 - m) := by
        rw [List.append_assoc, List.take_append_drop]
      have hB : (pending d ++ p.take (64 - m)).length = 64 * 1 := by
        rw [List.length_append, hpl, List.length_take]; omega
      have hr : (p.drop (64 - m)).length = p.length - (64 - m) := List.length_drop _ _
      have hT : (pending d ++ p).length = 64 + (p.drop (64 - m)).length := by
        rw [List.length_append, hpl, hr]; omega
      have q0 : (64 + (p.drop (64 - m)).length) / 64 = 1 + (p.drop (64 - m)).length / 64 := by
        omega
      have q1 : (64 + (p.drop (64 - m)).length) % 64 = (p.drop (64 - m)).length % 64 := by
        omega
      rw [hT, q0, q1]
      have w : compressN blk (1 + (p.drop (64 - m)).length / 64) d.words (pending d ++ p)
          = compressN blk ((p.drop (64 - m)).length / 64)
              (blk d.words (pending d ++ p.take (64 - m))) (p.drop (64 - m)) := by
        conv_lhs => rw [hsplit]
        rw [compressN_append blk 1 _ _ _ _ hB]
        simp only [compressN]
        rw [List.take_of_length_le (by omega)]
      have dr : (pending d ++ p).drop
            (64 + (p.drop (64 - m)).length - (p.drop (64 - m)).length % 64)
          = (p.drop (64 - m)).drop
              ((p.drop (64 - m)).length - (p.drop (64 - m)).length % 64) := by
        conv_lhs => rw [hsplit]
        have : 64 + (p.drop (64 - m)).length - (p.drop (64 - m)).length % 64
            = (pending d ++ p.take (64 - m)).length
              + ((p.drop (64 - m)).length - (p.drop (64 - m)).length % 64) := by
          rw [hB]; omega
        rw [this, List.drop_append]
      rw [w, dr]
      exact f2

/-! ## Padding arithmetic and the byte loops of `Sum` -/

theorem and_0x3f (n : Nat) : n &&& 0x3f = n % 64 :=
  Nat.and_pow_two_sub_one_eq_mod n 6

theorem padLen_eq (n : Nat) :
    padLen n = if n % 64 < 56 then 56 - n % 64 else 64 + 56 - n % 64 := by
  unfold padLen
  rw [and_0x3f]
  have h : n % 64 < 64 := Nat.mod_lt _ (by decide)
  split <;> omega

theorem padLen_eq_zeroCount (n : Nat) : padLen n = 1 + zeroCount n := by
  rw [padLen_eq]
  unfold zeroCount
  split <;> omega

theorem padLen_mod (n : Nat) : padLen (n % 2 ^ 64) = padLen n := by
  rw [padLen_eq, padLen_eq]
  have : n % 2 ^ 64 % 64 = n % 64 := by omega
  rw [this]

theorem sumTmp_eq (d : digest) : sumTmp d = terminator d.ver :: List.replicate 63 0 := by
  unfold sumTmp terminator
  split <;> rfl

theorem sumPad_eq (d : digest) :
    sumPad d = some (terminator d.ver :: List.replicate (zeroCount d.length) 0) := by
  unfold sumPad tmpSlice
  have h : padLen d.length ≤ 64 := by
    rw [padLen_eq]; split <;> omega
  have hz : zeroCount d.length ≤ 63 := by
    rw [padLen_eq_zeroCount] at h; omega
  rw [if_pos h, sumTmp_eq, padLen_eq_zeroCount, Nat.add_comm, List.take_succ_cons,
    List.take_replicate, Nat.min_eq_left hz]

theorem foldl_set_range (f : Nat → Nat) :
    ∀ (n : Nat) (t : List Nat), n ≤ t.length →
      (List.range n).foldl (fun t i => t.set i (f i)) t = (List.range n).map f ++ t.drop n
  | 0, t, _ => by simp
  | n + 1, t, h => by
    rw [List.range_succ, List.foldl_append, foldl_set_range f n t (by omega)]
    simp only [List.foldl_cons, List.foldl_nil, List.map_append, List.map_cons, List.map_nil]
    have hl : ((List.range n).map f).length = n := by simp
    rw [List.set_eq_take_append_cons_drop, if_pos (by
      rw [List.length_append, hl, List.length_drop]; omega)]
    rw [List.take_left' hl]
    have : n + 1 = ((List.range n).map f).length + 1 := by omega
    conv_lhs => rw [this, List.drop_append, List.drop_drop]
    simp [Nat.add_comm]

theorem putLength_eq (tmp : List Nat) (h : 8 ≤ tmp.length) (n : Nat) :
    putLength tmp n = le64 ((n <<< 3) % 2 ^ 64) ++ tmp.drop 8 := by
  unfold putLength le64
  exact foldl_set_range _ 8 tmp h

theorem sumLen_eq (d : digest) : sumLen d = some (le64 ((8 * d.length) % 2 ^ 64)) := by
  unfold sumLen tmpSlice
  rw [if_pos (by decide), putLength_eq _ (by rw [sumTmp_eq]; simp)]
  have hl : (le64 ((d.length <<< 3) % 2 ^ 64)).length = 8 := by simp [le64]
  rw [List.take_left' hl, Nat.shiftLeft_eq]
  have : d.length * 2 ^ 3 = 8 * d.length := by omega
  rw [this]

theorem le64_length (v : Nat) : (le64 v).length = 8 := by simp [le64]

theorem wordBytes_length (w : Words) : (wordBytes w).length = 24 := by
  simp [wordBytes, le64_length]

theorem putWords_take (tmp : List Nat) (h : 24 ≤ tmp.length) (d : digest) :
    (putWords tmp d).take 24 = wordBytes d.words := by
  iterate 24 (rcases tmp with _ | ⟨_, tmp⟩; · simp at h)
  simp [putWords, wordBytes, le64, digest.words, List.range, List.range.loop]

/-! ## The absorbed-message invariant -/

theorem absorbed_nx {blk : Core} {v : Int} {d : digest} {M : List Nat}
    (h : Absorbed blk v d M) : 0 ≤ d.nx ∧ d.nx < 64 := by
  obtain ⟨_, hn, _⟩ := h
  rw [hn]
  constructor <;> omega

theorem absorbed_New (blk : Core) : Absorbed blk 1 New [] :=
  ⟨rfl, rfl, rfl, rfl, rfl⟩

theorem absorbed_New2 (blk : Core) : Absorbed blk 2 New2 [] :=
  ⟨rfl, rfl, rfl, rfl, rfl⟩

theorem absorbed_Reset (blk : Core) (d : digest) : Absorbed blk d.ver (Reset d) [] :=
  ⟨rfl, rfl, rfl, rfl, rfl⟩

theorem absorbed_Write (blk : Core) (v : Int) (d : digest) (M p : List Nat)
    (h : Absorbed blk v d M) :
    ∃ d1, Write blk d p = some (d1, (p.length : Int), none) ∧ Absorbed blk v d1 (M ++ p) := by
  obtain ⟨h0, h1⟩ := absorbed_nx h
  obtain ⟨d1, e, fw, fn, fp, fl, fv⟩ := Write_spec blk d p h0 h1
  obtain ⟨hw, hn, hp, hl, hv⟩ := h
  refine ⟨d1, e, ?_⟩
  rw [hw, hp] at fw
  rw [hp] at fn fp
  rw [hl] at fl
  rw [hv] at fv
  have hA : (M.take (M.length - M.length % 64)).length = 64 * (M.length / 64) := by
    rw [List.length_take]; omega
  have hR : (M.drop (M.length - M.length % 64)).length = M.length % 64 := by
    rw [List.length_drop]; omega
  have hT : (M.drop (M.length - M.length % 64) ++ p).length = M.length % 64 + p.length := by
    rw [List.length_append, hR]
  have hMp : (M ++ p).length = M.length + p.length := List.length_append _ _
  have hsplit : M ++ p = M.take (M.length - M.length % 64)
      ++ (M.drop (M.length - M.length % 64) ++ p) := by
    rw [← List.append_assoc, List.take_append_drop]
  have hq : (M.length + p.length) / 64 = M.length / 64 + (M.length % 64 + p.length) / 64 := by
    omega
  have hm : (M.length + p.length) % 64 = (M.length % 64 + p.length) % 64 := by omega
  rw [hT] at fw fn fp
  refine ⟨?_, ?_, ?_, ?_, fv⟩
  · rw [fw]
    unfold hashBlocks
    rw [hMp, hq]
    conv_rhs => rw [hsplit]
    rw [compressN_append blk _ _ _ _ _ hA]
    congr 1
    have := compressN_append_left blk (M.length / 64) (initA, initB, initC)
      (M.take (M.length - M.length % 64)) (M.drop (M.length - M.length % 64)) hA
    rw [List.take_append_drop] at this
    exact this
  · rw [fn, hMp, hm]
  · rw [fp, hMp, hm]
    conv_rhs => rw [hsplit]
    have : M.length + p.length - (M.length % 64 + p.length) % 64
        = (M.take (M.length - M.length % 64)).length
          + (M.length % 64 + p.length - (M.length % 64 + p.length) % 64) := by
      rw [hA]; omega
    rw [this, List.drop_append]
  · rw [fl, hMp]
    omega

theorem absorbed_write (blk : Core) (v : Int) (d : digest) (M p : List Nat)
    (h : Absorbed blk v d M) :
    ∃ d1, write blk d p = some d1 ∧ Absorbed blk v d1 (M ++ p) := by
  obtain ⟨d1, e, f⟩ := absorbed_Write blk v d M p h
  exact ⟨d1, by simp [write, e], f⟩

theorem absorbed_writeAll (blk : Core) (v : Int) :
    ∀ (ps : List (List Nat)) (d : digest) (M : List Nat), Absorbed blk v d M →
      ∃ d1, writeAll blk d ps = some d1 ∧ Absorbed blk v d1 (M ++ ps.flatten)
  | [], d, M, h => ⟨d, rfl, by simpa using h⟩
  | p :: ps, d, M, h => by
    obtain ⟨d1, e, f⟩ := absorbed_write blk v d M p h
    obtain ⟨d2, e2, f2⟩ := absorbed_writeAll blk v ps d1 (M ++ p) f
    refine ⟨d2, ?_, ?_⟩
    · simp [writeAll, e, e2]
    · simpa [List.append_assoc] using f2

theorem zeroCount_mod (n : Nat) : zeroCount (n % 2 ^ 64) = zeroCount n := by
  unfold zeroCount
  omega

theorem padded_length_mod (v : Int) (M : List Nat) : (padded v M).length % 64 = 0 := by
  simp only [padded, List.length_append, List.length_cons, List.length_nil,
    List.length_replicate, le64_length, zeroCount]
  omega

theorem absorbed_sumPadded (blk : Core) (v : Int) (d : digest) (M : List Nat)
    (h : Absorbed blk v d M) :
    ∃ d2, sumPadded blk d = some d2 ∧ Absorbed blk v d2 (padded v M) := by
  have hl : d.length = M.length % 2 ^ 64 := h.2.2.2.1
  have hv : d.ver = v := h.2.2.2.2
  obtain ⟨d1, e1, f1⟩ := absorbed_write blk v d M
    (terminator d.ver :: List.replicate (zeroCount d.length) 0) h
  obtain ⟨d2, e2, f2⟩ := absorbed_write blk v d1 _ (le64 ((8 * d.length) % 2 ^ 64)) f1
  refine ⟨d2, ?_, ?_⟩
  · simp only [sumPadded, sumPad_eq, sumLen_eq, Option.some_bind, e1, e2]
  · have : padded v M = M ++ (terminator d.ver :: List.replicate (zeroCount d.length) 0)
        ++ le64 ((8 * d.length) % 2 ^ 64) := by
      have hm : (8 * (M.length % 2 ^ 64)) % 2 ^ 64 = (8 * M.length) % 2 ^ 64 := by omega
      rw [hv, hl, zeroCount_mod, hm]
      simp [padded]
    rw [this]
    exact f2

/-- `Sum` on a state that has absorbed `M`: it returns, leaves the receiver
as it was, and appends the 24 bytes of the words of the padded message. -/
theorem absorbed_Sum (blk : Core) (v : Int) (d : digest) (M inp : List Nat)
    (h : Absorbed blk v d M) :
    Sum blk d inp = some (d, inp ++ wordBytes (hashBlocks blk (padded v M))) := by
  obtain ⟨d2, e, fw, fn, _⟩ := absorbed_sumPadded blk v d M h
  have hn : d2.nx = 0 := by
    rw [fn, padded_length_mod]; rfl
  unfold Sum
  rw [e]
  simp only [Option.some_bind, hn, ne_eq, not_true_eq_false, if_false, tmpSlice]
  rw [if_pos (by decide), putWords_take _ (by
    rw [putLength_eq _ (by rw [sumTmp_eq]; simp), sumTmp_eq]
    simp [le64_length]), fw]
  rfl

theorem reachable_absorbed (blk : Core) (d0 d : digest) (h0 : Absorbed blk d0.ver d0 [])
    (h : Reachable blk d0 d) : ∃ M, Absorbed blk d0.ver d M := by
  induction h with
  | init => exact ⟨[], h0⟩
  | write d p d1 r _ e ih =>
    obtain ⟨M, hM⟩ := ih
    obtain ⟨d2, e2, f2⟩ := absorbed_Write blk _ d M p hM
    rw [e2] at e
    have : d2 = d1 := by
      have := Option.some.inj e
      exact congrArg Prod.fst this
    exact ⟨M ++ p, this ▸ f2⟩
  | reset d _ ih =>
    obtain ⟨M, hM⟩ := ih
    have := absorbed_Reset blk d
    rw [hM.2.2.2.2] at this
    exact ⟨[], this⟩
  | sum d inp d1 out _ e ih =>
    obtain ⟨M, hM⟩ := ih
    rw [absorbed_Sum blk _ d M inp hM] at e
    have : d = d1 := congrArg Prod.fst (Option.some.inj e)
    exact ⟨M, this ▸ hM⟩

/-! ## `Sum` on an arbitrary state -/

theorem Sum_eq_some (blk : Core) (d0 : digest) (inp : List Nat) (d1 : digest)
    (out : List Nat) :
    Sum blk d0 inp = some (d1, out) ↔
      ∃ dp, sumPadded blk d0 = some dp ∧ dp.nx = 0 ∧ d1 = d0 ∧
        out = inp ++ wordBytes dp.words := by
  have key : ∀ dp : digest,
      tmpSlice (putWords (putLength (sumTmp d0) d0.length) dp) 24
        = some (wordBytes dp.words) := by
    intro dp
    unfold tmpSlice
    rw [if_pos (by decide), putWords_take _ (by
      rw [putLength_eq _ (by rw [sumTmp_eq]; simp), sumTmp_eq]
      simp [le64_length])]
  unfold Sum
  cases hp : sumPadded blk d0 with
  | none => simp
  | some dp =>
    simp only [Option.some_bind, key]
    by_cases hn : dp.nx = 0
    · simp only [hn, ne_eq, not_true_eq_false, if_false, Option.some.injEq, Prod.mk.injEq]
      constructor
      · rintro ⟨rfl, rfl⟩
        exact ⟨dp, rfl, hn, rfl, rfl⟩
      · rintro ⟨dq, e, _, rfl, rfl⟩
        cases e
        exact ⟨rfl, rfl⟩
    · simp only [ne_eq, hn, not_false_eq_true, if_true]
      constructor
      · intro h; cases h
      · rintro ⟨dq, e, hq, _⟩
        cases e
        exact absurd hq hn

/-! ## The claims -/

/-- Claim C1. Chunking independence: for New and for New2, writing the chunks `ps`
one by one to a fresh engine and then calling `Sum(nil)` returns (no panic)
the same 24 bytes as one `Write` of the concatenation of `ps` to a fresh
engine followed by `Sum(nil)`. -/
theorem chunking_independence (blk : Core) (ps : List (List Nat)) :
    (∃ out : List Nat, out.length = 24 ∧
      ((writeAll blk New ps).bind fun d => sum blk d []) = some out ∧
      ((write blk New ps.flatten).bind fun d => sum blk d []) = some out) ∧
    (∃ out : List Nat, out.length = 24 ∧
      ((writeAll blk New2 ps).bind fun d => sum blk d []) = some out ∧
      ((write blk New2 ps.flatten).bind fun d => sum blk d []) = some out) := by
  have main : ∀ (v : Int) (d0 : digest), Absorbed blk v d0 [] →
      ∃ out : List Nat, out.length = 24 ∧
        ((writeAll blk d0 ps).bind fun d => sum blk d []) = some out ∧
        ((write blk d0 ps.flatten).bind fun d => sum blk d []) = some out := by
    intro v d0 h0
    obtain ⟨d1, e1, f1⟩ := absorbed_writeAll blk v ps d0 [] h0
    obtain ⟨d2, e2, f2⟩ := absorbed_write blk v d0 [] ps.flatten h0
    refine ⟨wordBytes (hashBlocks blk (padded v ps.flatten)), wordBytes_length _, ?_, ?_⟩
    · rw [e1]
      simp only [Option.some_bind, sum, absorbed_Sum blk v d1 _ [] f1, Option.map_some',
        List.nil_append]
    · rw [e2]
      simp only [Option.some_bind, sum, absorbed_Sum blk v d2 _ [] f2, Option.map_some',
        List.nil_append]
  exact ⟨main 1 New (absorbed_New blk), main 2 New2 (absorbed_New2 blk)⟩

/-- Claim C2. Sum hashes the padded message: for an engine built by New (resp.
New2) and fed the chunks `ps` with concatenation `M`, `Sum(inp)` returns
`inp ++ LE64(a) ++ LE64(b) ++ LE64(c)` where `(a, b, c)` results from the
successive one-block compressions, from `(initA, initB, initC)`, of the
64-byte blocks of `M ++ [t] ++ k zeros ++ LE64(8*|M| mod 2^64)`, with `t` the
terminator (0x01, resp. 0x80) and `k` the least number that makes the total
length a multiple of 64. -/
theorem sum_hashes_padded_message (blk : Core) (ps : List (List Nat)) (inp : List Nat) :
    ((writeAll blk New ps).bind fun d => sum blk d inp)
      = some (inp ++ le64 (hashBlocks blk (padded 1 ps.flatten)).1
          ++ le64 (hashBlocks blk (padded 1 ps.flatten)).2.1
          ++ le64 (hashBlocks blk (padded 1 ps.flatten)).2.2) ∧
    ((writeAll blk New2 ps).bind fun d => sum blk d inp)
      = some (inp ++ le64 (hashBlocks blk (padded 2 ps.flatten)).1
          ++ le64 (hashBlocks blk (padded 2 ps.flatten)).2.1
          ++ le64 (hashBlocks blk (padded 2 ps.flatten)).2.2) ∧
    padded 1 ps.flatten = ps.flatten ++ [0x01]
      ++ List.replicate (zeroCount ps.flatten.length) 0
      ++ le64 ((8 * ps.flatten.length) % 2 ^ 64) ∧
    padded 2 ps.flatten = ps.flatten ++ [0x80]
      ++ List.replicate (zeroCount ps.flatten.length) 0
      ++ le64 ((8 * ps.flatten.length) % 2 ^ 64) ∧
    (ps.flatten.length + 1 + zeroCount ps.flatten.length + 8) % 64 = 0 ∧
    (∀ j : Nat, (ps.flatten.length + 1 + j + 8) % 64 = 0 → zeroCount ps.flatten.length ≤ j) ∧
    (∀ L : List Nat, hashBlocks blk L
      = compressN blk (L.length / 64) (initA, initB, initC) L) := by
  have main : ∀ (v : Int) (d0 : digest), Absorbed blk v d0 [] →
      ((writeAll blk d0 ps).bind fun d => sum blk d inp)
        = some (inp ++ le64 (hashBlocks blk (padded v ps.flatten)).1
            ++ le64 (hashBlocks blk (padded v ps.flatten)).2.1
            ++ le64 (hashBlocks blk (padded v ps.flatten)).2.2) := by
    intro v d0 h0
    obtain ⟨d1, e1, f1⟩ := absorbed_writeAll blk v ps d0 [] h0
    rw [e1]
    simp only [Option.some_bind, sum, absorbed_Sum blk v d1 _ inp f1, Option.map_some',
      List.nil_append, wordBytes, List.append_assoc]
  refine ⟨main 1 New (absorbed_New blk), main 2 New2 (absorbed_New2 blk), rfl, rfl, ?_, ?_,
    fun _ => rfl⟩
  · unfold zeroCount; omega
  · intro j hj
    unfold zeroCount; omega

/-- Claim C3. Sum is a non-destructive read: when `Sum(inp)` returns on a state
`d0`, the receiver afterwards (`d1`) equals `d0` in every field; a second
`Sum` returns the same 24 digest bytes, and a `Write` after the `Sum` gives
the same result as the same `Write` without the `Sum`. -/
theorem sum_nondestructive (blk : Core) (d0 : digest) (inp : List Nat) (d1 : digest)
    (out : List Nat) (h : Sum blk d0 inp = some (d1, out)) :
    (d1.a = d0.a ∧ d1.b = d0.b ∧ d1.c = d0.c ∧ d1.x = d0.x ∧ d1.nx = d0.nx ∧
      d1.length = d0.length ∧ d1.ver = d0.ver) ∧
    (∀ inp2 : List Nat, ∃ out2 : List Nat, Sum blk d1 inp2 = some (d1, out2) ∧
      out2.drop inp2.length = out.drop inp.length ∧ (out2.drop inp2.length).length = 24) ∧
    (∀ p : List Nat, Write blk d1 p = Write blk d0 p) := by
  obtain ⟨dp, e, hn, rfl, rfl⟩ := (Sum_eq_some blk d0 inp d1 out).mp h
  refine ⟨⟨rfl, rfl, rfl, rfl, rfl, rfl, rfl⟩, ?_, fun _ => rfl⟩
  intro inp2
  refine ⟨inp2 ++ wordBytes dp.words, ?_, ?_, ?_⟩
  · exact (Sum_eq_some blk d1 inp2 d1 _).mpr ⟨dp, e, hn, rfl, rfl⟩
  · rw [List.drop_left, List.drop_left]
  · rw [List.drop_left, wordBytes_length]

/-- Witness of C3 at `New()` with the prefix `[9]`. -/
theorem sum_nondestructive_witness :
    Sum toyBlk New [9] = some (New, [9, 240, 205, 171, 137, 103, 69, 35, 1, 184, 119, 175, 38,
        126, 213, 44, 237, 80, 131, 101, 135, 137, 139, 141, 248]) ∧
    ((New.a = New.a ∧ New.b = New.b ∧ New.c = New.c ∧ New.x = New.x ∧ New.nx = New.nx ∧
      New.length = New.length ∧ New.ver = New.ver) ∧
    (∀ inp2 : List Nat, ∃ out2 : List Nat, Sum toyBlk New inp2 = some (New, out2) ∧
      out2.drop inp2.length = List.drop [9].length [9, 240, 205, 171, 137, 103, 69, 35, 1, 184,
        119, 175, 38, 126, 213, 44, 237, 80, 131, 101, 135, 137, 139, 141, 248] ∧
      (out2.drop inp2.length).length = 24) ∧
    (∀ p : List Nat, Write toyBlk New p = Write toyBlk New p)) :=
  ⟨by decide, sum_nondestructive toyBlk New [9] New _ (by decide)⟩

/-- Claim C4. Cumulative digest after Sum: for New and for New2, on a fresh engine
the sequence `Write(P); Sum(nil); Write(Q); Sum(nil)` runs without panic and
the second `Sum` returns exactly the 24 bytes a fresh engine of the same
variant returns for `Write(P ++ Q); Sum(nil)`. -/
theorem cumulative_digest_after_sum (blk : Core) (P Q : List Nat) :
    (∃ out : List Nat, out.length = 24 ∧
      ((write blk New P).bind fun d1 => (Sum blk d1 []).bind fun r1 =>
        (write blk r1.1 Q).bind fun d2 => sum blk d2 []) = some out ∧
      ((write blk New (P ++ Q)).bind fun d => sum blk d []) = some out) ∧
    (∃ out : List Nat, out.length = 24 ∧
      ((write blk New2 P).bind fun d1 => (Sum blk d1 []).bind fun r1 =>
        (write blk r1.1 Q).bind fun d2 => sum blk d2 []) = some out ∧
      ((write blk New2 (P ++ Q)).bind fun d => sum blk d []) = some out) := by
  have main : ∀ (v : Int) (d0 : digest), Absorbed blk v d0 [] →
      ∃ out : List Nat, out.length = 24 ∧
        ((write blk d0 P).bind fun d1 => (Sum blk d1 []).bind fun r1 =>
          (write blk r1.1 Q).bind fun d2 => sum blk d2 []) = some out ∧
        ((write blk d0 (P ++ Q)).bind fun d => sum blk d []) = some out := by
    intro v d0 h0
    obtain ⟨d1, e1, f1⟩ := absorbed_write blk v d0 [] P h0
    obtain ⟨d2, e2, f2⟩ := absorbed_write blk v d1 _ Q f1
    obtain ⟨d3, e3, f3⟩ := absorbed_write blk v d0 [] (P ++ Q) h0
    rw [List.nil_append] at f2 f3
    refine ⟨wordBytes (hashBlocks blk (padded v (P ++ Q))), wordBytes_length _, ?_, ?_⟩
    · rw [e1]
      simp only [Option.some_bind, absorbed_Sum blk v d1 _ [] f1, e2, sum,
        absorbed_Sum blk v d2 _ [] f2, Option.map_some', List.nil_append]
    · rw [e3]
      simp only [Option.some_bind, sum, absorbed_Sum blk v d3 _ [] f3, Option.map_some',
        List.nil_append]
  exact ⟨main 1 New (absorbed_New blk), main 2 New2 (absorbed_New2 blk)⟩

/-- Claim C5. The panic of `Sum` is unreachable: for every state reachable from
New or New2 by Write, Reset and Sum calls, the private copy after the padding
and the length field has `nx = 0`, and `Sum` returns a digest. -/
theorem sum_panic_unreachable (blk : Core) (d0 d : digest) (inp : List Nat)
    (h0 : d0 = New ∨ d0 = New2) (h : Reachable blk d0 d) :
    (∃ dp : digest, sumPadded blk d = some dp ∧ dp.nx = 0) ∧
    (∃ out : List Nat, Sum blk d inp = some (d, out)) := by
  have hA : Absorbed blk d0.ver d0 [] := by
    rcases h0 with rfl | rfl
    · exact absorbed_New blk
    · exact absorbed_New2 blk
  obtain ⟨M, hM⟩ := reachable_absorbed blk d0 d hA h
  have hS := absorbed_Sum blk _ d M inp hM
  obtain ⟨dp, e, hn, _, _⟩ := (Sum_eq_some blk d inp d _).mp hS
  exact ⟨⟨dp, e, hn⟩, ⟨_, hS⟩⟩

/-- Witness of C5 at the state reached from `New()` by writing three bytes. -/
theorem sum_panic_unreachable_witness :
    (New = New ∨ New = New2) ∧ Reachable toyBlk New sampleState ∧
    ((∃ dp : digest, sumPadded toyBlk sampleState = some dp ∧ dp.nx = 0) ∧
    (∃ out : List Nat, Sum toyBlk sampleState [] = some (sampleState, out))) :=
  ⟨Or.inl rfl, Reachable.write New [1, 2, 3] sampleState (3, none) Reachable.init (by decide),
    sum_panic_unreachable toyBlk New sampleState [] (Or.inl rfl)
      (Reachable.write New [1, 2, 3] sampleState (3, none) Reachable.init (by decide))⟩

/-- Claim C6. Padding length: the number of padding bytes `Sum` writes is
`56 - length mod 64` when `length mod 64 < 56` and `64 + 56 - length mod 64`
otherwise; it lies between 1 and 64, so the slice of `tmp` is in bounds and
starts with the terminator byte, and `length` plus this number is congruent
to 56 modulo 64. -/
theorem padding_length (d : digest) :
    padLen d.length
      = (if d.length % 64 < 56 then 56 - d.length % 64 else 64 + 56 - d.length % 64) ∧
    1 ≤ padLen d.length ∧ padLen d.length ≤ 64 ∧
    (d.length + padLen d.length) % 64 = 56 ∧
    (∃ pad : List Nat, sumPad d = some pad ∧ pad.length = padLen d.length ∧
      pad.head? = some (if d.ver = 1 then 0x01 else 0x80)) := by
  have e := padLen_eq d.length
  refine ⟨e, ?_, ?_, ?_, ?_⟩
  · rw [e]; split <;> omega
  · rw [e]; split <;> omega
  · rw [e]; split <;> omega
  · refine ⟨_, sumPad_eq d, ?_, ?_⟩
    · rw [padLen_eq_zeroCount, List.length_cons, List.length_replicate, Nat.add_comm]
    · simp [terminator]

/-- Claim C7. Output format: whenever `Sum(inp)` returns `out`, `out` has length
`len(inp) + 24 = len(inp) + Size`, starts with `inp`, and ends with the words
`a`, `b`, `c` of the padded copy, in that order, each as 8 bytes least
significant byte first. -/
theorem sum_output_format (blk : Core) (d0 : digest) (inp : List Nat) (d1 : digest)
    (out : List Nat) (h : Sum blk d0 inp = some (d1, out)) :
    out.length = inp.length + 24 ∧ out.length = inp.length + Size ∧
    out.take inp.length = inp ∧
    (∃ dp : digest, sumPadded blk d0 = some dp ∧
      out.drop inp.length = le64 dp.a ++ le64 dp.b ++ le64 dp.c ∧
      (∀ i : Nat, i < 8 →
        out[inp.length + i]? = some ((dp.a >>> (8 * i)) % 256) ∧
        out[inp.length + 8 + i]? = some ((dp.b >>> (8 * i)) % 256) ∧
        out[inp.length + 16 + i]? = some ((dp.c >>> (8 * i)) % 256))) := by
  obtain ⟨dp, e, hn, rfl, rfl⟩ := (Sum_eq_some blk d0 inp d1 out).mp h
  have hlen : (inp ++ wordBytes dp.words).length = inp.length + 24 := by
    rw [List.length_append, wordBytes_length]
  refine ⟨hlen, hlen, List.take_left _ _, dp, e, List.drop_left _ _, ?_⟩
  intro i hi
  have g : ∀ (v : Nat), (le64 v)[i]? = some ((v >>> (8 * i)) % 256) := by
    intro v
    simp [le64, List.getElem?_map, List.getElem?_range hi]
  have a8 := le64_length dp.a
  have b8 := le64_length dp.b
  refine ⟨?_, ?_, ?_⟩
  · rw [List.getElem?_append_right (by omega)]
    simp only [Nat.add_sub_cancel_left, wordBytes, digest.words, List.append_assoc]
    rw [List.getElem?_append_left (by omega)]
    exact g _
  · rw [List.getElem?_append_right (by omega)]
    have : inp.length + 8 + i - inp.length = 8 + i := by omega
    simp only [this, wordBytes, digest.words, List.append_assoc]
    rw [List.getElem?_append_right (by omega), List.getElem?_append_left (by omega)]
    simp only [a8, Nat.add_sub_cancel_left]
    exact g _
  · rw [List.getElem?_append_right (by omega)]
    have : inp.length + 16 + i - inp.length = 16 + i := by omega
    simp only [this, wordBytes, digest.words, List.append_assoc]
    rw [List.getElem?_append_right (by omega), List.getElem?_append_right (by omega)]
    have : 16 + i - (le64 dp.a).length - (le64 dp.b).length = i := by omega
    rw [this]
    exact g _

/-- Witness of C7 at the state reached from `New()` by writing three bytes,
with the prefix `[7]`. -/
theorem sum_output_format_witness :
    Sum toyBlk sampleState [7] = some (sampleState, sampleOut) ∧
    (sampleOut.length = [7].length + 24 ∧ sampleOut.length = [7].length + Size ∧
    sampleOut.take [7].length = [7] ∧
    (∃ dp : digest, sumPadded toyBlk sampleState = some dp ∧
      sampleOut.drop [7].length = le64 dp.a ++ le64 dp.b ++ le64 dp.c ∧
      (∀ i : Nat, i < 8 →
        sampleOut[[7].length + i]? = some ((dp.a >>> (8 * i)) % 256) ∧
        sampleOut[[7].length + 8 + i]? = some ((dp.b >>> (8 * i)) % 256) ∧
        sampleOut[[7].length + 16 + i]? = some ((dp.c >>> (8 * i)) % 256)))) :=
  ⟨by decide, sum_output_format toyBlk sampleState [7] sampleState sampleOut (by decide)⟩

/-! ## The variant tag -/

theorem writeFill_ver (blk : Core) (d : digest) (p : List Nat) (v : Int) :
    writeFill blk { d with ver := v } p
      = (writeFill blk d p).map fun r => ({ r.1 with ver := v }, r.2) := by
  unfold writeFill
  by_cases h : d.nx > 0
  · simp only [h, if_true]
    generalize (if (p.length : Int) > (chunk : Int) - d.nx
        then (chunk : Int) - d.nx else (p.length : Int)) = n
    cases storeLoop p d.nx n.toNat 0 d.x with
    | none => rfl
    | some x1 =>
      simp only [Option.some_bind]
      cases sliceFrom p n with
      | none => rfl
      | some q =>
        simp only [Option.some_bind, Option.map_some']
        by_cases hc : d.nx + n = (chunk : Int)
        · simp only [hc, if_true]
          rfl
        · simp only [hc, if_false]
  · simp only [h, if_false, Option.map_some']

theorem writeBlocks_ver (blk : Core) (d : digest) (p : List Nat) (v : Int) :
    writeBlocks blk { d with ver := v } p
      = (writeBlocks blk d p).map fun r => ({ r.1 with ver := v }, r.2) := by
  rw [writeBlocks_eq, writeBlocks_eq]
  rfl

theorem writeRest_ver (d : digest) (p : List Nat) (v : Int) :
    writeRest { d with ver := v } p = { writeRest d p with ver := v } := by
  unfold writeRest
  split <;> rfl

theorem Write_ver (blk : Core) (d : digest) (p : List Nat) (v : Int) :
    Write blk { d with ver := v } p
      = (Write blk d p).map fun r => ({ r.1 with ver := v }, r.2) := by
  unfold Write
  have := writeFill_ver blk { d with length := (d.length + p.length) % 2 ^ 64 } p v
  simp only at this ⊢
  rw [this]
  cases writeFill blk { d with length := (d.length + p.length) % 2 ^ 64 } p with
  | none => rfl
  | some r =>
    simp only [Option.map_some', Option.some_bind]
    rw [writeBlocks_ver]
    cases writeBlocks blk r.1 r.2 with
    | none => rfl
    | some q =>
      simp only [Option.map_some', Option.some_bind]
      rw [writeRest_ver]

/-- Claim C9. Reset makes the engine indistinguishable from a fresh one: for every
state `d` reachable from New (resp. New2) and every list of chunks, `Reset`,
then the chunks, then `Sum(nil)` returns the digest that a fresh New (resp.
New2) engine returns for the same chunks; `Reset` leaves the buffer `x` as it
was. -/
theorem reset_like_fresh (blk : Core) (d0 d : digest) (ps : List (List Nat))
    (h0 : d0 = New ∨ d0 = New2) (h : Reachable blk d0 d) :
    (∃ out : List Nat, out.length = 24 ∧
      ((writeAll blk (Reset d) ps).bind fun e => sum blk e []) = some out ∧
      ((writeAll blk d0 ps).bind fun e => sum blk e []) = some out) ∧
    (∃ out : List Nat, sum blk (Reset d) [] = some out ∧ sum blk d0 [] = some out) ∧
    (Reset d).x = d.x := by
  have hA : Absorbed blk d0.ver d0 [] := by
    rcases h0 with rfl | rfl
    · exact absorbed_New blk
    · exact absorbed_New2 blk
  obtain ⟨M, hM⟩ := reachable_absorbed blk d0 d hA h
  have hR : Absorbed blk d0.ver (Reset d) [] := by
    have := absorbed_Reset blk d
    rw [hM.2.2.2.2] at this
    exact this
  refine ⟨?_, ?_, rfl⟩
  · obtain ⟨d1, e1, f1⟩ := absorbed_writeAll blk _ ps (Reset d) [] hR
    obtain ⟨d2, e2, f2⟩ := absorbed_writeAll blk _ ps d0 [] hA
    refine ⟨wordBytes (hashBlocks blk (padded d0.ver ps.flatten)), wordBytes_length _, ?_, ?_⟩
    · rw [e1]
      simp only [Option.some_bind, sum, absorbed_Sum blk _ d1 _ [] f1, Option.map_some',
        List.nil_append]
    · rw [e2]
      simp only [Option.some_bind, sum, absorbed_Sum blk _ d2 _ [] f2, Option.map_some',
        List.nil_append]
  · refine ⟨wordBytes (hashBlocks blk (padded d0.ver [])), ?_, ?_⟩
    · simp only [sum, absorbed_Sum blk _ _ _ [] hR, Option.map_some', List.nil_append]
    · simp only [sum, absorbed_Sum blk _ _ _ [] hA, Option.map_some', List.nil_append]

/-- Witness of C9 at the state reached from `New()` by writing three bytes. -/
theorem reset_like_fresh_witness :
    (New = New ∨ New = New2) ∧ Reachable toyBlk New sampleState ∧
    ((∃ out : List Nat, out.length = 24 ∧
      ((writeAll toyBlk (Reset sampleState) [[4], [], [5, 6]]).bind
        fun e => sum toyBlk e []) = some out ∧
      ((writeAll toyBlk New [[4], [], [5, 6]]).bind fun e => sum toyBlk e []) = some out) ∧
    (∃ out : List Nat, sum toyBlk (Reset sampleState) [] = some out ∧
      sum toyBlk New [] = some out) ∧
    (Reset sampleState).x = sampleState.x) :=
  ⟨Or.inl rfl, Reachable.write New [1, 2, 3] sampleState (3, none) Reachable.init (by decide),
    reset_like_fresh toyBlk New sampleState [[4], [], [5, 6]] (Or.inl rfl)
      (Reachable.write New [1, 2, 3] sampleState (3, none) Reachable.init (by decide))⟩

/-- Claim C10. Reset postcondition: `Reset` sets `a, b, c` to the three initial
constants, `nx` and `length` to 0, leaves `ver` (and the buffer) unchanged,
and is idempotent. -/
theorem reset_postcondition (d : digest) :
    (Reset d).a = 0x0123456789abcdef ∧ (Reset d).b = 0xfedcba9876543210 ∧
    (Reset d).c = 0xf096a5b4c3b2e187 ∧ (Reset d).nx = 0 ∧ (Reset d).length = 0 ∧
    (Reset d).ver = d.ver ∧ (Reset d).x = d.x ∧ Reset (Reset d) = Reset d :=
  ⟨rfl, rfl, rfl, rfl, rfl, rfl, rfl, rfl⟩


/-! ## Invariants of `Write` -/

theorem reachable_from_fresh (blk : Core) (d0 d : digest) (h0 : d0 = New ∨ d0 = New2)
    (h : Reachable blk d0 d) : ∃ M, Absorbed blk d0.ver d M := by
  have hA : Absorbed blk d0.ver d0 [] := by
    rcases h0 with rfl | rfl
    · exact absorbed_New blk
    · exact absorbed_New2 blk
  exact reachable_absorbed blk d0 d hA h

theorem pending_length (d : digest) (h0 : 0 ≤ d.nx) (h1 : d.nx < 64) :
    ((pending d).length : Int) = d.nx := by
  have hx := d.x.property
  simp only [pending, List.length_take]
  omega

/-- Claim C11. Fill-count invariant: from a state with `0 ≤ nx ≤ 63`, `Write`
returns and `0 ≤ nx ≤ 63` holds again; New, New2 and Reset set `nx = 0`; so
every state reachable from New or New2 by Write, Reset and Sum has `nx` in
`[0, 63]`, never 64. -/
theorem fill_count_invariant (blk : Core) (d : digest) (p : List Nat)
    (h0 : 0 ≤ d.nx) (h1 : d.nx ≤ 63) :
    (∃ d1 r, Write blk d p = some (d1, r) ∧ 0 ≤ d1.nx ∧ d1.nx ≤ 63) ∧
    New.nx = 0 ∧ New2.nx = 0 ∧ (Reset d).nx = 0 ∧
    (∀ d0 e : digest, (d0 = New ∨ d0 = New2) → Reachable blk d0 e →
      0 ≤ e.nx ∧ e.nx ≤ 63 ∧ e.nx ≠ 64) := by
  refine ⟨?_, rfl, rfl, rfl, ?_⟩
  · obtain ⟨d1, e, _, fn, _⟩ := Write_spec blk d p h0 (by omega)
    refine ⟨d1, _, e, ?_, ?_⟩ <;> rw [fn] <;> omega
  · intro d0 e hd he
    obtain ⟨M, hM⟩ := reachable_from_fresh blk d0 e hd he
    have := absorbed_nx hM
    omega

/-- Witness of C11 at the state reached from `New()` by writing three bytes,
with a write of 70 bytes. -/
theorem fill_count_invariant_witness :
    (0 ≤ sampleState.nx ∧ sampleState.nx ≤ 63) ∧
    ((∃ d1 r, Write toyBlk sampleState (List.replicate 70 5) = some (d1, r) ∧
      0 ≤ d1.nx ∧ d1.nx ≤ 63) ∧
    New.nx = 0 ∧ New2.nx = 0 ∧ (Reset sampleState).nx = 0 ∧
    (∀ d0 e : digest, (d0 = New ∨ d0 = New2) → Reachable toyBlk d0 e →
      0 ≤ e.nx ∧ e.nx ≤ 63 ∧ e.nx ≠ 64)) :=
  ⟨by decide, fill_count_invariant toyBlk sampleState (List.replicate 70 5)
    (by decide) (by decide)⟩

/-- Claim C12. Write always succeeds and consumes everything: from a state
with `0 ≤ nx ≤ 63`, for every slice `p`, the empty one included, `Write(p)`
returns `nn = len(p)` and `err = nil`. -/
theorem write_always_succeeds (blk : Core) (d : digest) (p : List Nat)
    (h0 : 0 ≤ d.nx) (h1 : d.nx ≤ 63) :
    (∃ d1, Write blk d p = some (d1, (p.length : Int), none)) ∧
    (∃ d1, Write blk d [] = some (d1, 0, none)) := by
  obtain ⟨d1, e, _⟩ := Write_spec blk d p h0 (by omega)
  obtain ⟨d2, e2, _⟩ := Write_spec blk d [] h0 (by omega)
  exact ⟨⟨d1, e⟩, ⟨d2, e2⟩⟩

/-- Witness of C12 at the state reached from `New()` by writing three bytes,
with a write of 70 bytes. -/
theorem write_always_succeeds_witness :
    (0 ≤ sampleState.nx ∧ sampleState.nx ≤ 63) ∧
    ((∃ d1, Write toyBlk sampleState (List.replicate 70 5)
      = some (d1, ((List.replicate 70 5).length : Int), none)) ∧
    (∃ d1, Write toyBlk sampleState [] = some (d1, 0, none))) :=
  ⟨by decide, write_always_succeeds toyBlk sampleState (List.replicate 70 5)
    (by decide) (by decide)⟩

/-! ## The byte counter -/

theorem writeFill_length (blk : Core) (d : digest) (p : List Nat) (d1 : digest)
    (r : List Nat) (h : writeFill blk d p = some (d1, r)) : d1.length = d.length := by
  unfold writeFill at h
  by_cases hpos : d.nx > 0
  · simp only [hpos, if_true] at h
    generalize (if (p.length : Int) > (chunk : Int) - d.nx
        then (chunk : Int) - d.nx else (p.length : Int)) = n at h
    cases hs : storeLoop p d.nx n.toNat 0 d.x with
    | none => rw [hs] at h; cases h
    | some x1 =>
      rw [hs] at h
      simp only [Option.some_bind] at h
      cases hq : sliceFrom p n with
      | none => rw [hq] at h; cases h
      | some q =>
        rw [hq] at h
        simp only [Option.some_bind, Option.some.injEq, Prod.mk.injEq] at h
        rw [← h.1]
        by_cases hc : d.nx + n = (chunk : Int)
        · simp only [hc, if_true]
          rfl
        · simp only [hc, if_false]
  · simp only [hpos, if_false, Option.some.injEq, Prod.mk.injEq] at h
    rw [← h.1]

theorem writeRest_length (d : digest) (p : List Nat) : (writeRest d p).length = d.length := by
  unfold writeRest
  split <;> rfl

theorem Write_length (blk : Core) (d : digest) (p : List Nat) (d1 : digest)
    (r : Int × Option String) (h : Write blk d p = some (d1, r)) :
    d1.length = (d.length + p.length) % 2 ^ 64 := by
  unfold Write at h
  simp only at h
  cases hf : writeFill blk { d with length := (d.length + p.length) % 2 ^ 64 } p with
  | none => rw [hf] at h; cases h
  | some q =>
    rw [hf] at h
    simp only [Option.some_bind, writeBlocks_eq, Option.some.injEq, Prod.mk.injEq] at h
    rw [← h.1, writeRest_length]
    exact writeFill_length blk _ p q.1 q.2 hf

/-- Claim C13, as the code has it. The byte counter under feeding: whenever
`Write(p)` returns, the field `length` is the old `length` plus `len(p)`
modulo `2^64`; it is the exact sum, and so not smaller than the old value,
as long as the sum stays below `2^64`. -/
theorem counter_adds_modulo (blk : Core) (d : digest) (p : List Nat) (d1 : digest)
    (r : Int × Option String) (h : Write blk d p = some (d1, r)) :
    d1.length = (d.length + p.length) % 2 ^ 64 ∧
    (d.length + p.length < 2 ^ 64 →
      d1.length = d.length + p.length ∧ d.length ≤ d1.length) := by
  have e := Write_length blk d p d1 r h
  refine ⟨e, fun hlt => ?_⟩
  rw [e, Nat.mod_eq_of_lt hlt]
  exact ⟨rfl, Nat.le_add_right _ _⟩

/-- Witness of the amended C13 at `New()` with a write of three bytes. -/
theorem counter_adds_modulo_witness :
    Write toyBlk New [1, 2, 3] = some (sampleState, 3, none) ∧
    (sampleState.length = (New.length + [1, 2, 3].length) % 2 ^ 64 ∧
    (New.length + [1, 2, 3].length < 2 ^ 64 →
      sampleState.length = New.length + [1, 2, 3].length ∧
      New.length ≤ sampleState.length)) :=
  ⟨by decide, counter_adds_modulo toyBlk New [1, 2, 3] sampleState (3, none) (by decide)⟩

/-- Counterexample to C13 as stated: on the state whose counter is
`2^64 - 1` (63 bytes pending), `Write` of one byte returns with the counter
at 0, which is smaller than the old counter and is not the old counter plus
one. -/
theorem counter_wraps_counterexample :
    0 ≤ wrapState.nx ∧ wrapState.nx ≤ 63 ∧ wrapState.length = 18446744073709551615 ∧
    (Write toyBlk wrapState [7]).map (fun q => (q.1.length, q.2))
      = some (0, 1, none) ∧
    ¬ (wrapState.length ≤ 0) ∧ ¬ (0 = wrapState.length + [7].length) := by
  decide

/-- Claim C14. Constructors return an already-reset engine: `New()` and
`New2()` have `a, b, c` equal to the initial constants, `nx = 0`,
`length = 0` and an all-zero buffer, which is the state `Reset` produces from
a zero-valued digest; `ver` is 1 for New and 2 for New2, and the two states
differ in no other field. -/
theorem constructors_return_reset_engine :
    (New.a = 0x0123456789abcdef ∧ New.b = 0xfedcba9876543210 ∧ New.c = 0xf096a5b4c3b2e187 ∧
      New.nx = 0 ∧ New.length = 0 ∧ New.x.val = List.replicate 64 0 ∧ New.ver = 1) ∧
    (New2.a = 0x0123456789abcdef ∧ New2.b = 0xfedcba9876543210 ∧
      New2.c = 0xf096a5b4c3b2e187 ∧
      New2.nx = 0 ∧ New2.length = 0 ∧ New2.x.val = List.replicate 64 0 ∧ New2.ver = 2) ∧
    New = { Reset digest.zero with ver := 1 } ∧ New2 = { Reset digest.zero with ver := 2 } ∧
    (digest.zero.a = 0 ∧ digest.zero.b = 0 ∧ digest.zero.c = 0 ∧
      digest.zero.x.val = List.replicate 64 0 ∧ digest.zero.nx = 0 ∧
      digest.zero.length = 0 ∧ digest.zero.ver = 0) ∧
    New2 = { New with ver := 2 } ∧ Reset New = New ∧ Reset New2 = New2 :=
  ⟨⟨rfl, rfl, rfl, rfl, rfl, rfl, rfl⟩, ⟨rfl, rfl, rfl, rfl, rfl, rfl, rfl⟩, rfl, rfl,
    ⟨rfl, rfl, rfl, rfl, rfl, rfl, rfl⟩, rfl, rfl, rfl⟩

/-! ## Block dispatch and the padding branch -/

/-- Claim C16. Write's block dispatch: from a state with `0 ≤ nx ≤ 63`, with
`T = x[0:nx] ++ p`, `Write(p)` returns and afterwards `(a, b, c)` is the
result of the successive one-block compressions of the first `|T| / 64`
64-byte windows of `T`, `nx = |T| mod 64`, `x[0:nx]` holds the last
`|T| mod 64` bytes of `T`, and `(a, b, c)` is unchanged when `|T| < 64`. -/
theorem write_block_dispatch (blk : Core) (d : digest) (p : List Nat)
    (h0 : 0 ≤ d.nx) (h1 : d.nx ≤ 63) :
    pending d = d.x.val.take d.nx.toNat ∧
    ∃ d1, Write blk d p = some (d1, (p.length : Int), none) ∧
      (d1.a, d1.b, d1.c)
        = compressN blk ((pending d ++ p).length / 64) (d.a, d.b, d.c) (pending d ++ p) ∧
      d1.nx = (((pending d ++ p).length % 64 : Nat) : Int) ∧
      d1.x.val.take ((pending d ++ p).length % 64)
        = (pending d ++ p).drop ((pending d ++ p).length - (pending d ++ p).length % 64) ∧
      ((pending d ++ p).length < 64 → d1.a = d.a ∧ d1.b = d.b ∧ d1.c = d.c) := by
  obtain ⟨d1, e, fw, fn, fp, _, _⟩ := Write_spec blk d p h0 (by omega)
  refine ⟨rfl, d1, e, fw, fn, ?_, ?_⟩
  · rw [← fp]
    simp only [pending, fn, Int.toNat_ofNat]
  · intro hlt
    have hq : (pending d ++ p).length / 64 = 0 := by omega
    have fw2 : (d1.a, d1.b, d1.c) = (d.a, d.b, d.c) := by
      have := fw
      rw [hq] at this
      exact this
    simp only [Prod.mk.injEq] at fw2
    exact fw2

/-- Witness of C16 at the state reached from `New()` by writing three bytes,
with a write of 70 bytes. -/
theorem write_block_dispatch_witness :
    (0 ≤ sampleState.nx ∧ sampleState.nx ≤ 63) ∧
    (pending sampleState = sampleState.x.val.take sampleState.nx.toNat ∧
    ∃ d1, Write toyBlk sampleState (List.replicate 70 5)
        = some (d1, ((List.replicate 70 5).length : Int), none) ∧
      (d1.a, d1.b, d1.c)
        = compressN toyBlk ((pending sampleState ++ List.replicate 70 5).length / 64)
            (sampleState.a, sampleState.b, sampleState.c)
            (pending sampleState ++ List.replicate 70 5) ∧
      d1.nx = (((pending sampleState ++ List.replicate 70 5).length % 64 : Nat) : Int) ∧
      d1.x.val.take ((pending sampleState ++ List.replicate 70 5).length % 64)
        = (pending sampleState ++ List.replicate 70 5).drop
            ((pending sampleState ++ List.replicate 70 5).length
              - (pending sampleState ++ List.replicate 70 5).length % 64) ∧
      ((pending sampleState ++ List.replicate 70 5).length < 64 →
        d1.a = sampleState.a ∧ d1.b = sampleState.b ∧ d1.c = sampleState.c)) :=
  ⟨by decide, write_block_dispatch toyBlk sampleState (List.replicate 70 5)
    (by decide) (by decide)⟩

/-- Two writes in a row, from a state with fill count in `[0, 64)`: the words
absorb the whole blocks of the pending bytes followed by both inputs. -/
theorem write_write_words (blk : Core) (d : digest) (p q : List Nat)
    (h0 : 0 ≤ d.nx) (h1 : d.nx < 64) :
    ∃ d1 d2, write blk d p = some d1 ∧ write blk d1 q = some d2 ∧
      d2.words = compressN blk ((pending d ++ p ++ q).length / 64) d.words
        (pending d ++ p ++ q) ∧
      d2.nx = (((pending d ++ p ++ q).length % 64 : Nat) : Int) := by
  obtain ⟨d1, e1, fw1, fn1, fp1, _, _⟩ := Write_spec blk d p h0 h1
  obtain ⟨d2, e2, fw2, fn2, _, _, _⟩ := Write_spec blk d1 q
    (by rw [fn1]; omega) (by rw [fn1]; omega)
  refine ⟨d1, d2, by simp [write, e1], by simp [write, e2], ?_, ?_⟩
  all_goals
    generalize pending d ++ p = T at fw1 fn1 fp1 ⊢
    rw [fp1] at fw2 fn2
    have hA : (T.take (T.length - T.length % 64)).length = 64 * (T.length / 64) := by
      rw [List.length_take]; omega
    have hR : (T.drop (T.length - T.length % 64)).length = T.length % 64 := by
      rw [List.length_drop]; omega
    have hT : (T.drop (T.length - T.length % 64) ++ q).length = T.length % 64 + q.length := by
      rw [List.length_append, hR]
    have hTq : (T ++ q).length = T.length + q.length := List.length_append _ _
    rw [hT] at fw2 fn2
  · have hsplit : T ++ q = T.take (T.length - T.length % 64)
        ++ (T.drop (T.length - T.length % 64) ++ q) := by
      rw [← List.append_assoc, List.take_append_drop]
    have hq : (T.length + q.length) / 64 = T.length / 64 + (T.length % 64 + q.length) / 64 := by
      omega
    rw [fw2, fw1, hTq, hq]
    conv_rhs => rw [hsplit]
    rw [compressN_append blk _ _ _ _ _ hA]
    congr 1
    have := compressN_append_left blk (T.length / 64) d.words
      (T.take (T.length - T.length % 64)) (T.drop (T.length - T.length % 64)) hA
    rw [List.take_append_drop] at this
    exact this
  · rw [fn2, hTq]
    congr 1
    omega

/-- Claim C17. Padding branch: on every state reachable from New or New2,
`Sum` feeds the pending bytes, the padding and the eight length bytes; this
stream is exactly one 64-byte block when `length mod 64 < 56` and exactly two
when `length mod 64 ≥ 56`, the words of the copy are the one-block
compressions of these blocks in order, and the little-endian length field is
the last 8 bytes of the last block. -/
theorem padding_branch (blk : Core) (d0 d : digest) (h0 : d0 = New ∨ d0 = New2)
    (h : Reachable blk d0 d) :
    ∃ pad len8 dp, sumPad d = some pad ∧ sumLen d = some len8 ∧
      sumPadded blk d = some dp ∧
      len8 = le64 ((8 * d.length) % 2 ^ 64) ∧
      (pending d ++ pad ++ len8).drop ((pending d ++ pad ++ len8).length - 8) = len8 ∧
      (d.length % 64 < 56 →
        (pending d ++ pad ++ len8).length = 64 ∧
        (dp.a, dp.b, dp.c) = blk (d.a, d.b, d.c) (pending d ++ pad ++ len8)) ∧
      (56 ≤ d.length % 64 →
        (pending d ++ pad ++ len8).length = 128 ∧
        (dp.a, dp.b, dp.c) = blk (blk (d.a, d.b, d.c) ((pending d ++ pad ++ len8).take 64))
          ((pending d ++ pad ++ len8).drop 64)) := by
  obtain ⟨M, hM⟩ := reachable_from_fresh blk d0 d h0 h
  obtain ⟨hn0, hn1⟩ := absorbed_nx hM
  have hnx : d.nx = ((M.length % 64 : Nat) : Int) := hM.2.1
  have hlen : d.length = M.length % 2 ^ 64 := hM.2.2.2.1
  have hpl := pending_length d hn0 hn1
  have hl8 : (le64 ((8 * d.length) % 2 ^ 64)).length = 8 := le64_length _
  obtain ⟨d1, d2, e1, e2, fw, _⟩ := write_write_words blk d
    (terminator d.ver :: List.replicate (zeroCount d.length) 0)
    (le64 ((8 * d.length) % 2 ^ 64)) hn0 hn1
  have hT : (pending d ++ (terminator d.ver :: List.replicate (zeroCount d.length) 0)
      ++ le64 ((8 * d.length) % 2 ^ 64)).length
      = (pending d).length + (1 + zeroCount d.length) + 8 := by
    simp only [List.length_append, List.length_cons, List.length_replicate, hl8]
    omega
  refine ⟨_, _, d2, sumPad_eq d, sumLen_eq d, ?_, rfl, ?_, ?_, ?_⟩
  · simp only [sumPadded, sumPad_eq, sumLen_eq, Option.some_bind, e1, e2]
  · have : (pending d ++ (terminator d.ver :: List.replicate (zeroCount d.length) 0)
        ++ le64 ((8 * d.length) % 2 ^ 64)).length - 8
        = (pending d ++ (terminator d.ver :: List.replicate (zeroCount d.length) 0)).length := by
      rw [List.length_append _ (le64 _), hl8]; omega
    rw [this, List.drop_left]
  · intro hlt
    have hz : zeroCount d.length = 55 - d.length % 64 := by
      unfold zeroCount; omega
    have h64 : (pending d ++ (terminator d.ver :: List.replicate (zeroCount d.length) 0)
        ++ le64 ((8 * d.length) % 2 ^ 64)).length = 64 := by
      rw [hT, hz]; omega
    refine ⟨h64, ?_⟩
    show d2.words = _
    rw [fw, h64]
    simp only [Nat.div_self (by decide : 0 < 64), compressN]
    rw [List.take_of_length_le (by omega)]
    rfl
  · intro hge
    have hz : zeroCount d.length = 119 - d.length % 64 := by
      unfold zeroCount; omega
    have h128 : (pending d ++ (terminator d.ver :: List.replicate (zeroCount d.length) 0)
        ++ le64 ((8 * d.length) % 2 ^ 64)).length = 128 := by
      rw [hT, hz]; omega
    refine ⟨h128, ?_⟩
    show d2.words = _
    rw [fw, h128]
    have h2 : 128 / 64 = 2 := by decide
    have t2 : ((pending d ++ (terminator d.ver :: List.replicate (zeroCount d.length) 0)
        ++ le64 ((8 * d.length) % 2 ^ 64)).drop 64).take 64
        = (pending d ++ (terminator d.ver :: List.replicate (zeroCount d.length) 0)
        ++ le64 ((8 * d.length) % 2 ^ 64)).drop 64 :=
      List.take_of_length_le (by rw [List.length_drop]; omega)
    simp only [h2, compressN]
    rw [t2]
    rfl

/-- Witness of C17 at the states of `New()` after 55 and after 63 zero
bytes: one block in the first case, two in the second. -/
theorem padding_branch_witness :
    ((New = New ∨ New = New2) ∧ Reachable toyBlk New fed55 ∧ fed55.length % 64 < 56 ∧
      ∃ pad len8 dp, sumPad fed55 = some pad ∧ sumLen fed55 = some len8 ∧
        sumPadded toyBlk fed55 = some dp ∧
        len8 = le64 ((8 * fed55.length) % 2 ^ 64) ∧
        (pending fed55 ++ pad ++ len8).drop ((pending fed55 ++ pad ++ len8).length - 8)
          = len8 ∧
        (fed55.length % 64 < 56 →
          (pending fed55 ++ pad ++ len8).length = 64 ∧
          (dp.a, dp.b, dp.c) = toyBlk (fed55.a, fed55.b, fed55.c)
            (pending fed55 ++ pad ++ len8)) ∧
        (56 ≤ fed55.length % 64 →
          (pending fed55 ++ pad ++ len8).length = 128 ∧
          (dp.a, dp.b, dp.c)
            = toyBlk (toyBlk (fed55.a, fed55.b, fed55.c)
                ((pending fed55 ++ pad ++ len8).take 64))
              ((pending fed55 ++ pad ++ len8).drop 64))) ∧
    ((New = New ∨ New = New2) ∧ Reachable toyBlk New fed63 ∧ 56 ≤ fed63.length % 64 ∧
      ∃ pad len8 dp, sumPad fed63 = some pad ∧ sumLen fed63 = some len8 ∧
        sumPadded toyBlk fed63 = some dp ∧
        len8 = le64 ((8 * fed63.length) % 2 ^ 64) ∧
        (pending fed63 ++ pad ++ len8).drop ((pending fed63 ++ pad ++ len8).length - 8)
          = len8 ∧
        (fed63.length % 64 < 56 →
          (pending fed63 ++ pad ++ len8).length = 64 ∧
          (dp.a, dp.b, dp.c) = toyBlk (fed63.a, fed63.b, fed63.c)
            (pending fed63 ++ pad ++ len8)) ∧
        (56 ≤ fed63.length % 64 →
          (pending fed63 ++ pad ++ len8).length = 128 ∧
          (dp.a, dp.b, dp.c)
            = toyBlk (toyBlk (fed63.a, fed63.b, fed63.c)
                ((pending fed63 ++ pad ++ len8).take 64))
              ((pending fed63 ++ pad ++ len8).drop 64))) :=
  ⟨⟨Or.inl rfl,
      Reachable.write New (List.replicate 55 0) fed55 (55, none) Reachable.init (by decide),
      by decide,
      padding_branch toyBlk New fed55 (Or.inl rfl)
        (Reachable.write New (List.replicate 55 0) fed55 (55, none) Reachable.init
          (by decide))⟩,
    ⟨Or.inl rfl,
      Reachable.write New (List.replicate 63 0) fed63 (63, none) Reachable.init (by decide),
      by decide,
      padding_branch toyBlk New fed63 (Or.inl rfl)
        (Reachable.write New (List.replicate 63 0) fed63 (63, none) Reachable.init
          (by decide))⟩⟩

/-- Claim C18. Counter/fill-count coupling: in every state reachable from New
or New2 by Write, Reset and Sum, `nx = length mod 64`; and from any state
with `0 ≤ nx ≤ 63` and `nx = length mod 64`, `Write` returns a state where
this holds again, whether or not the counter wraps around (64 divides
`2^64`). -/
theorem counter_fill_coupling (blk : Core) (d0 d : digest) (h0 : d0 = New ∨ d0 = New2)
    (h : Reachable blk d0 d) :
    d.nx = ((d.length % 64 : Nat) : Int) ∧
    (∀ (e : digest) (p : List Nat), 0 ≤ e.nx → e.nx ≤ 63 →
      e.nx = ((e.length % 64 : Nat) : Int) →
      ∃ e1 r, Write blk e p = some (e1, r) ∧ e1.nx = ((e1.length % 64 : Nat) : Int) ∧
        e1.length = (e.length + p.length) % 2 ^ 64) ∧
    2 ^ 64 % 64 = 0 := by
  refine ⟨?_, ?_, by decide⟩
  · obtain ⟨M, hM⟩ := reachable_from_fresh blk d0 d h0 h
    have hnx : d.nx = ((M.length % 64 : Nat) : Int) := hM.2.1
    have hlen : d.length = M.length % 2 ^ 64 := hM.2.2.2.1
    rw [hnx, hlen]
    congr 1
    omega
  · intro e p he0 he1 hc
    obtain ⟨e1, w, _, fn, _, fl, _⟩ := Write_spec blk e p he0 (by omega)
    have hpl := pending_length e he0 (by omega)
    refine ⟨e1, _, w, ?_, fl⟩
    rw [fn, fl, List.length_append]
    congr 1
    omega

/-- Witness of C18 at the state reached from `New()` by writing three
bytes. -/
theorem counter_fill_coupling_witness :
    (New = New ∨ New = New2) ∧ Reachable toyBlk New sampleState ∧
    (sampleState.nx = ((sampleState.length % 64 : Nat) : Int) ∧
    (∀ (e : digest) (p : List Nat), 0 ≤ e.nx → e.nx ≤ 63 →
      e.nx = ((e.length % 64 : Nat) : Int) →
      ∃ e1 r, Write toyBlk e p = some (e1, r) ∧ e1.nx = ((e1.length % 64 : Nat) : Int) ∧
        e1.length = (e.length + p.length) % 2 ^ 64) ∧
    2 ^ 64 % 64 = 0) :=
  ⟨Or.inl rfl, Reachable.write New [1, 2, 3] sampleState (3, none) Reachable.init (by decide),
    counter_fill_coupling toyBlk New sampleState (Or.inl rfl)
      (Reachable.write New [1, 2, 3] sampleState (3, none) Reachable.init (by decide))⟩

/-! ## Stale buffer bytes -/

theorem agree_of_fields {e1 e2 : digest} {w : Words} {n : Int} {pd : List Nat} {l : Nat}
    {v : Int} (f1 : Fields e1 w n pd l v) (f2 : Fields e2 w n pd l v) : Agree e1 e2 := by
  obtain ⟨w1, n1, p1, l1, v1⟩ := f1
  obtain ⟨w2, n2, p2, l2, v2⟩ := f2
  have hw : (e1.a, e1.b, e1.c) = (e2.a, e2.b, e2.c) := w1.trans w2.symm
  simp only [Prod.mk.injEq] at hw
  exact ⟨hw.1, hw.2.1, hw.2.2, n1.trans n2.symm, l1.trans l2.symm, v1.trans v2.symm,
    p1.trans p2.symm⟩

theorem agree_words {d1 d2 : digest} (h : Agree d1 d2) : d1.words = d2.words := by
  obtain ⟨ha, hb, hc, _⟩ := h
  simp only [digest.words, ha, hb, hc]

theorem Write_nonpos (blk : Core) (d : digest) (p : List Nat) (h : d.nx ≤ 0) :
    Write blk d p = some
      (writeRest (compress blk { d with length := (d.length + p.length) % 2 ^ 64 } p)
        (p.drop (p.length - p.length % 64)), (p.length : Int), none) := by
  have hn : ¬ (d.nx > 0) := by omega
  unfold Write
  simp only [writeFill, hn, if_false, Option.some_bind, writeBlocks_eq]

theorem Write_agree (blk : Core) (d1 d2 : digest) (p : List Nat) (hn : d1.nx ≤ 63)
    (hag : Agree d1 d2) :
    ∃ e1 e2 r, Write blk d1 p = some (e1, r) ∧ Write blk d2 p = some (e2, r) ∧
      Agree e1 e2 ∧ e1.nx ≤ 63 := by
  have hw := agree_words hag
  obtain ⟨ha, hb, hc, hnx, hl, hv, hp⟩ := hag
  by_cases h0 : 0 ≤ d1.nx
  · obtain ⟨e1, w1, f1⟩ := Write_spec blk d1 p h0 (by omega)
    obtain ⟨e2, w2, f2⟩ := Write_spec blk d2 p (by omega) (by omega)
    have hpp : pending d1 = pending d2 := hp
    rw [← hw, ← hpp, ← hl, ← hv] at f2
    refine ⟨e1, e2, _, w1, w2, agree_of_fields f1 f2, ?_⟩
    rw [f1.2.1]; omega
  · have hneg : d1.nx ≤ 0 := by omega
    rw [Write_nonpos blk d1 p hneg, Write_nonpos blk d2 p (by omega)]
    refine ⟨_, _, _, rfl, rfl, ?_⟩
    have t1 : d1.nx.toNat = 0 := by omega
    have t2 : d2.nx.toNat = 0 := by omega
    have hcw : compressN blk (p.length / 64) (d1.a, d1.b, d1.c) p
        = compressN blk (p.length / 64) (d2.a, d2.b, d2.c) p := by
      rw [ha, hb, hc]
    by_cases hr : p.drop (p.length - p.length % 64) = []
    · rw [hr, writeRest_nil, writeRest_nil]
      refine ⟨⟨?_, ?_, ?_, hnx, ?_, hv, ?_⟩, ?_⟩
      · exact congrArg (fun s => s.1) hcw
      · exact congrArg (fun s => s.2.1) hcw
      · exact congrArg (fun s => s.2.2) hcw
      · show (d1.length + p.length) % 2 ^ 64 = (d2.length + p.length) % 2 ^ 64
        rw [hl]
      · show List.take d1.nx.toNat d1.x.val = List.take d2.nx.toNat d2.x.val
        rw [t1, t2]; rfl
      · show d1.nx ≤ 63
        omega
    · have hlen : (p.drop (p.length - p.length % 64)).length < 64 := by
        rw [List.length_drop]; omega
      have g1 := writeRest_fields
        (compress blk { d1 with length := (d1.length + p.length) % 2 ^ 64 } p) _ hr hlen
      have g2 := writeRest_fields
        (compress blk { d2 with length := (d2.length + p.length) % 2 ^ 64 } p) _ hr hlen
      have e3 : (compress blk { d2 with length := (d2.length + p.length) % 2 ^ 64 } p).words
          = (compress blk { d1 with length := (d1.length + p.length) % 2 ^ 64 } p).words :=
        hcw.symm
      have e4 : (compress blk { d2 with length := (d2.length + p.length) % 2 ^ 64 } p).length
          = (compress blk { d1 with length := (d1.length + p.length) % 2 ^ 64 } p).length := by
        show (d2.length + p.length) % 2 ^ 64 = (d1.length + p.length) % 2 ^ 64
        rw [hl]
      have e5 : (compress blk { d2 with length := (d2.length + p.length) % 2 ^ 64 } p).ver
          = (compress blk { d1 with length := (d1.length + p.length) % 2 ^ 64 } p).ver :=
        hv.symm
      rw [e3, e4, e5] at g2
      refine ⟨agree_of_fields g1 g2, ?_⟩
      rw [g1.2.1]; omega

theorem write_agree (blk : Core) (d1 d2 : digest) (p : List Nat) (hn : d1.nx ≤ 63)
    (hag : Agree d1 d2) :
    ∃ e1 e2, write blk d1 p = some e1 ∧ write blk d2 p = some e2 ∧
      Agree e1 e2 ∧ e1.nx ≤ 63 := by
  obtain ⟨e1, e2, r, w1, w2, hA, hb⟩ := Write_agree blk d1 d2 p hn hag
  exact ⟨e1, e2, by simp [write, w1], by simp [write, w2], hA, hb⟩

theorem sum_eq (blk : Core) (d : digest) (inp : List Nat) :
    sum blk d inp = (sumPadded blk d).bind fun dp =>
      if dp.nx ≠ 0 then none else some (inp ++ wordBytes dp.words) := by
  have key : ∀ dp : digest,
      tmpSlice (putWords (putLength (sumTmp d) d.length) dp) 24
        = some (wordBytes dp.words) := by
    intro dp
    unfold tmpSlice
    rw [if_pos (by decide), putWords_take _ (by
      rw [putLength_eq _ (by rw [sumTmp_eq]; simp), sumTmp_eq]
      simp [le64_length])]
  unfold sum Sum
  cases sumPadded blk d with
  | none => rfl
  | some dp =>
    simp only [Option.some_bind, key]
    by_cases hn : dp.nx = 0
    · simp [hn]
    · simp [hn]

theorem sumPadded_eq (blk : Core) (d : digest) :
    sumPadded blk d
      = (write blk d (terminator d.ver :: List.replicate (zeroCount d.length) 0)).bind
          fun d1 => write blk d1 (le64 ((8 * d.length) % 2 ^ 64)) := by
  simp only [sumPadded, sumPad_eq, sumLen_eq, Option.some_bind]

/-- Claim C19. Stale buffer bytes never influence the result: for two states
with `nx ≤ 63` that agree on `a, b, c, nx, length, ver` and on `x[0:nx]`,
`Sum(inp)` has the same outcome for both (the same bytes, or the panic in
both), and the same `Write(p)` returns for both, with the same return values
and states that agree again in the same sense. -/
theorem stale_bytes_no_influence (blk : Core) (d1 d2 : digest) (inp p : List Nat)
    (hn : d1.nx ≤ 63)
    (hag : d1.a = d2.a ∧ d1.b = d2.b ∧ d1.c = d2.c ∧ d1.nx = d2.nx ∧
      d1.length = d2.length ∧ d1.ver = d2.ver ∧
      d1.x.val.take d1.nx.toNat = d2.x.val.take d2.nx.toNat) :
    sum blk d1 inp = sum blk d2 inp ∧
    ∃ e1 e2 r, Write blk d1 p = some (e1, r) ∧ Write blk d2 p = some (e2, r) ∧
      (e1.a = e2.a ∧ e1.b = e2.b ∧ e1.c = e2.c ∧ e1.nx = e2.nx ∧
        e1.length = e2.length ∧ e1.ver = e2.ver ∧
        e1.x.val.take e1.nx.toNat = e2.x.val.take e2.nx.toNat) := by
  have hA : Agree d1 d2 := hag
  constructor
  · rw [sum_eq, sum_eq, sumPadded_eq, sumPadded_eq, ← hag.2.2.2.2.1, ← hag.2.2.2.2.2.1]
    obtain ⟨e1, e2, w1, w2, hA1, hb1⟩ := write_agree blk d1 d2
      (terminator d1.ver :: List.replicate (zeroCount d1.length) 0) hn hA
    obtain ⟨f1, f2, v1, v2, hA2, _⟩ := write_agree blk e1 e2
      (le64 ((8 * d1.length) % 2 ^ 64)) hb1 hA1
    rw [w1, w2]
    simp only [Option.some_bind, v1, v2]
    rw [agree_words hA2, hA2.2.2.2.1]
  · obtain ⟨e1, e2, r, w1, w2, hA1, _⟩ := Write_agree blk d1 d2 p hn hA
    exact ⟨e1, e2, r, w1, w2, hA1⟩

/-- Witness of C19 at `sampleState` and `staleState`, which differ in the
bytes `x[3:64]` only. -/
theorem stale_bytes_no_influence_witness :
    sampleState.nx ≤ 63 ∧ sampleState.x ≠ staleState.x ∧
    (sampleState.a = staleState.a ∧ sampleState.b = staleState.b ∧
      sampleState.c = staleState.c ∧ sampleState.nx = staleState.nx ∧
      sampleState.length = staleState.length ∧ sampleState.ver = staleState.ver ∧
      sampleState.x.val.take sampleState.nx.toNat
        = staleState.x.val.take staleState.nx.toNat) ∧
    (sum toyBlk sampleState [7] = sum toyBlk staleState [7] ∧
    ∃ e1 e2 r, Write toyBlk sampleState [4, 5] = some (e1, r) ∧
      Write toyBlk staleState [4, 5] = some (e2, r) ∧
      (e1.a = e2.a ∧ e1.b = e2.b ∧ e1.c = e2.c ∧ e1.nx = e2.nx ∧
        e1.length = e2.length ∧ e1.ver = e2.ver ∧
        e1.x.val.take e1.nx.toNat = e2.x.val.take e2.nx.toNat)) :=
  ⟨by decide, by decide, by decide,
    stale_bytes_no_influence toyBlk sampleState staleState [7] [4, 5] (by decide)
      (by decide)⟩

/-! ## Index safety of `Write` -/

/-- Claim C20. Write never indexes out of range: from a state with
`0 ≤ nx ≤ 63`, for every input `p`: in the fill loop (run when `nx > 0`, with
bound `n`) every store index `nx + i` is below 64 and every read index `i` is
within `p`, and `p[n:]` is within `p`; the slice handed to `compress` by line
82 has the largest multiple of 64 not above the remaining length, and both
reslices there are within bounds; the final `copy` stores fewer than 64
bytes; no step panics. -/
theorem write_index_safety (blk : Core) (d : digest) (p : List Nat)
    (h0 : 0 ≤ d.nx) (h1 : d.nx ≤ 63) :
    (0 < d.nx →
      (∀ i : Nat, (i : Int) < (if (p.length : Int) > (chunk : Int) - d.nx
          then (chunk : Int) - d.nx else (p.length : Int)) →
        0 ≤ d.nx + (i : Int) ∧ d.nx + (i : Int) < 64 ∧ i < p.length) ∧
      (∃ x1, storeLoop p d.nx (if (p.length : Int) > (chunk : Int) - d.nx
          then (chunk : Int) - d.nx else (p.length : Int)).toNat 0 d.x = some x1) ∧
      (∃ q, sliceFrom p (if (p.length : Int) > (chunk : Int) - d.nx
          then (chunk : Int) - d.nx else (p.length : Int)) = some q)) ∧
    (∃ d1 r1 d2 r2,
      writeFill blk { d with length := (d.length + p.length) % 2 ^ 64 } p = some (d1, r1) ∧
      (r1.length ≥ chunk →
        (r1.length - r1.length % 64) % 64 = 0 ∧ r1.length - r1.length % 64 ≤ r1.length ∧
        r1.length < (r1.length - r1.length % 64) + 64 ∧
        sliceTo r1 ((r1.length - r1.length % 64 : Nat) : Int)
          = some (r1.take (r1.length - r1.length % 64)) ∧
        (r1.take (r1.length - r1.length % 64)).length = r1.length - r1.length % 64 ∧
        sliceFrom r1 ((r1.length - r1.length % 64 : Nat) : Int)
          = some (r1.drop (r1.length - r1.length % 64))) ∧
      writeBlocks blk d1 r1 = some (d2, r2) ∧
      r2.length < 64 ∧ (copy d2.x r2).2 = (r2.length : Int) ∧
      Write blk d p = some (writeRest d2 r2, (p.length : Int), none)) := by
  obtain ⟨m, hm⟩ : ∃ m : Nat, d.nx = (m : Int) := ⟨d.nx.toNat, by omega⟩
  have hm64 : m < 64 := by omega
  constructor
  · intro hpos
    have hn : (if (p.length : Int) > (chunk : Int) - d.nx then (chunk : Int) - d.nx
        else (p.length : Int)) = ((min p.length (64 - m) : Nat) : Int) := by
      simp only [chunk]
      split <;> omega
    rw [hn]
    refine ⟨?_, ?_, ?_⟩
    · intro i hi
      omega
    · obtain ⟨x1, e, _⟩ := storeLoop_spec p m (min p.length (64 - m)) 0 d.x
        (by omega) (by omega)
      exact ⟨x1, by rw [hm, Int.toNat_ofNat]; exact e⟩
    · refine ⟨p.drop (min p.length (64 - m)), ?_⟩
      unfold sliceFrom
      rw [if_pos (by constructor <;> omega), Int.toNat_ofNat]
  · -- the three parts of `Write`
    have hfill : ∃ d1 r1,
        writeFill blk { d with length := (d.length + p.length) % 2 ^ 64 } p
          = some (d1, r1) := by
      rcases Nat.eq_zero_or_pos m with hz | hpos
      · exact ⟨_, _, writeFill_zero blk _ p (by show d.nx = 0; rw [hm, hz]; rfl)⟩
      · by_cases hs : m + p.length < 64
        · obtain ⟨d1, e, _⟩ := writeFill_short blk
            { d with length := (d.length + p.length) % 2 ^ 64 } p m hm hpos hs
          exact ⟨d1, _, e⟩
        · obtain ⟨d1, e, _⟩ := writeFill_full blk
            { d with length := (d.length + p.length) % 2 ^ 64 } p m hm hpos hm64 (by omega)
          exact ⟨d1, _, e⟩
    obtain ⟨d1, r1, ef⟩ := hfill
    have hb := writeBlocks_eq blk d1 r1
    have hr2 : (r1.drop (r1.length - r1.length % 64)).length < 64 := by
      rw [List.length_drop]; omega
    refine ⟨d1, r1, _, _, ef, ?_, hb, hr2, ?_, ?_⟩
    · intro hge
      have hge64 : 64 ≤ r1.length := hge
      have hsl : (0 : Int) ≤ ((r1.length - r1.length % 64 : Nat) : Int) ∧
          ((r1.length - r1.length % 64 : Nat) : Int) ≤ (r1.length : Int) := by
        constructor <;> omega
      refine ⟨by omega, by omega, by omega, ?_, ?_, ?_⟩
      · unfold sliceTo
        rw [if_pos hsl, Int.toNat_ofNat]
      · rw [List.length_take]; omega
      · unfold sliceFrom
        rw [if_pos hsl, Int.toNat_ofNat]
    · show ((min 64 (r1.drop (r1.length - r1.length % 64)).length : Nat) : Int) = _
      rw [Nat.min_eq_right (by omega)]
    · unfold Write
      simp only [ef, Option.some_bind, hb]

/-- Witness of C20 at the state reached from `New()` by writing three bytes,
with a write of 70 bytes. -/
theorem write_index_safety_witness :
    (0 ≤ sampleState.nx ∧ sampleState.nx ≤ 63) ∧
    (∃ d1, Write toyBlk sampleState (List.replicate 70 5)
      = some (d1, ((List.replicate 70 5).length : Int), none)) :=
  ⟨by decide,
    let ⟨_, _, d2, r2, _, _, _, _, _, hW⟩ :=
      (write_index_safety toyBlk sampleState (List.replicate 70 5)
        (by decide) (by decide)).2
    ⟨writeRest d2 r2, hW⟩⟩

/-! ## The empty stream -/

/-- The digest of the empty stream: `Sum(nil)` on `New()` and on `New2()`
returns the 24 bytes of one compression of `(initA, initB, initC)` with the
single block `[t] ++ 55 zero bytes ++ 8 zero bytes`, `t = 0x01` resp. `0x80`.
Whether the two values differ is decided by the compression function. -/
theorem empty_stream_digest (blk : Core) :
    sum blk New [] = some (wordBytes (blk (initA, initB, initC)
      ([0x01] ++ List.replicate 55 0 ++ List.replicate 8 0))) ∧
    sum blk New2 [] = some (wordBytes (blk (initA, initB, initC)
      ([0x80] ++ List.replicate 55 0 ++ List.replicate 8 0))) := by
  have e1 := absorbed_Sum blk 1 New [] [] (absorbed_New blk)
  have e2 := absorbed_Sum blk 2 New2 [] [] (absorbed_New2 blk)
  constructor
  · simp only [sum, e1, Option.map_some', List.nil_append]
    rfl
  · simp only [sum, e2, Option.map_some', List.nil_append]
    rfl

/-! ## The two variants -/

theorem Sum_eq (blk : Core) (d : digest) (inp : List Nat) :
    Sum blk d inp = (sumPadded blk d).bind fun dp =>
      if dp.nx ≠ 0 then none else some (d, inp ++ le64 dp.a ++ le64 dp.b ++ le64 dp.c) := by
  have key : ∀ dp : digest,
      tmpSlice (putWords (putLength (sumTmp d) d.length) dp) 24
        = some (wordBytes dp.words) := by
    intro dp
    unfold tmpSlice
    rw [if_pos (by decide), putWords_take _ (by
      rw [putLength_eq _ (by rw [sumTmp_eq]; simp), sumTmp_eq]
      simp [le64_length])]
  unfold Sum
  cases sumPadded blk d with
  | none => rfl
  | some dp =>
    simp only [Option.some_bind, key, wordBytes, digest.words, List.append_assoc]

theorem getElem?_at_terminator (A R : List Nat) (t : Nat) :
    (A ++ t :: R)[A.length]? = some t := by
  rw [List.getElem?_append_right (Nat.le_refl _), Nat.sub_self, List.getElem?_cons_zero]

theorem getElem?_off_terminator (A R : List Nat) (s t i : Nat) (h : i ≠ A.length) :
    (A ++ s :: R)[i]? = (A ++ t :: R)[i]? := by
  by_cases hi : i < A.length
  · rw [List.getElem?_append_left hi, List.getElem?_append_left hi]
  · rw [List.getElem?_append_right (by omega), List.getElem?_append_right (by omega)]
    obtain ⟨j, hj⟩ : ∃ j, i - A.length = j + 1 := ⟨i - A.length - 1, by omega⟩
    rw [hj, List.getElem?_cons_succ, List.getElem?_cons_succ]

/-- Claim C8. The variants differ only in the terminator byte. Take two
states equal in every field except `ver = 1` versus `ver = 2`. `Sum` runs on
its copy `Write(pad)` and then `Write(len8)`, where `pad` is `0x01` resp.
`0x80` followed by the same number of `0x00` bytes and `len8` is the same
little-endian length field; it returns the words of that copy. When
`0 ≤ nx ≤ 63`, the words of the copy are the one-block compressions of the
stream `x[0:nx] ++ pad ++ len8`, for every compression `blk`. The two streams
have the same length and the same byte at every position except the first
padding byte, which is `0x01` resp. `0x80`. `Write` gives the same result for
both states up to the `ver` field. -/
theorem variants_differ_in_terminator (blk : Core) (d : digest) (p inp : List Nat) :
    (0 ≤ d.nx → d.nx ≤ 63 →
      ∃ dp1 dp2, sumPadded blk { d with ver := 1 } = some dp1 ∧
        sumPadded blk { d with ver := 2 } = some dp2 ∧
        (dp1.a, dp1.b, dp1.c)
          = compressN blk
              ((pending d ++ (0x01 :: List.replicate (padLen d.length - 1) 0)
                ++ le64 ((8 * d.length) % 2 ^ 64)).length / 64)
              (d.a, d.b, d.c)
              (pending d ++ (0x01 :: List.replicate (padLen d.length - 1) 0)
                ++ le64 ((8 * d.length) % 2 ^ 64)) ∧
        (dp2.a, dp2.b, dp2.c)
          = compressN blk
              ((pending d ++ (0x80 :: List.replicate (padLen d.length - 1) 0)
                ++ le64 ((8 * d.length) % 2 ^ 64)).length / 64)
              (d.a, d.b, d.c)
              (pending d ++ (0x80 :: List.replicate (padLen d.length - 1) 0)
                ++ le64 ((8 * d.length) % 2 ^ 64))) ∧
    (pending { d with ver := 1 } = pending d ∧ pending { d with ver := 2 } = pending d) ∧
    sumPad { d with ver := 1 } = some (0x01 :: List.replicate (padLen d.length - 1) 0) ∧
    sumPad { d with ver := 2 } = some (0x80 :: List.replicate (padLen d.length - 1) 0) ∧
    sumLen { d with ver := 1 } = some (le64 ((8 * d.length) % 2 ^ 64)) ∧
    sumLen { d with ver := 2 } = some (le64 ((8 * d.length) % 2 ^ 64)) ∧
    sumPadded blk { d with ver := 1 }
      = ((write blk { d with ver := 1 }
            (0x01 :: List.replicate (padLen d.length - 1) 0)).bind
          fun e => write blk e (le64 ((8 * d.length) % 2 ^ 64))) ∧
    sumPadded blk { d with ver := 2 }
      = ((write blk { d with ver := 2 }
            (0x80 :: List.replicate (padLen d.length - 1) 0)).bind
          fun e => write blk e (le64 ((8 * d.length) % 2 ^ 64))) ∧
    Sum blk { d with ver := 1 } inp
      = ((sumPadded blk { d with ver := 1 }).bind fun dp =>
          if dp.nx ≠ 0 then none
          else some ({ d with ver := 1 }, inp ++ le64 dp.a ++ le64 dp.b ++ le64 dp.c)) ∧
    Sum blk { d with ver := 2 } inp
      = ((sumPadded blk { d with ver := 2 }).bind fun dp =>
          if dp.nx ≠ 0 then none
          else some ({ d with ver := 2 }, inp ++ le64 dp.a ++ le64 dp.b ++ le64 dp.c)) ∧
    ((pending d ++ (0x01 :: List.replicate (padLen d.length - 1) 0)
        ++ le64 ((8 * d.length) % 2 ^ 64)).length
      = (pending d ++ (0x80 :: List.replicate (padLen d.length - 1) 0)
        ++ le64 ((8 * d.length) % 2 ^ 64)).length ∧
      (pending d ++ (0x01 :: List.replicate (padLen d.length - 1) 0)
        ++ le64 ((8 * d.length) % 2 ^ 64))[(pending d).length]? = some 0x01 ∧
      (pending d ++ (0x80 :: List.replicate (padLen d.length - 1) 0)
        ++ le64 ((8 * d.length) % 2 ^ 64))[(pending d).length]? = some 0x80 ∧
      ∀ i : Nat, i ≠ (pending d).length →
        (pending d ++ (0x01 :: List.replicate (padLen d.length - 1) 0)
          ++ le64 ((8 * d.length) % 2 ^ 64))[i]?
        = (pending d ++ (0x80 :: List.replicate (padLen d.length - 1) 0)
          ++ le64 ((8 * d.length) % 2 ^ 64))[i]?) ∧
    Write blk { d with ver := 2 } p
      = (Write blk { d with ver := 1 } p).map fun r => ({ r.1 with ver := 2 }, r.2) := by
  have hz : padLen d.length - 1 = zeroCount d.length := by
    rw [padLen_eq_zeroCount]; omega
  have hp1 : sumPadded blk { d with ver := 1 }
      = ((write blk { d with ver := 1 }
            (0x01 :: List.replicate (padLen d.length - 1) 0)).bind
          fun e => write blk e (le64 ((8 * d.length) % 2 ^ 64))) := by
    rw [sumPadded_eq, hz]; rfl
  have hp2 : sumPadded blk { d with ver := 2 }
      = ((write blk { d with ver := 2 }
            (0x80 :: List.replicate (padLen d.length - 1) 0)).bind
          fun e => write blk e (le64 ((8 * d.length) % 2 ^ 64))) := by
    rw [sumPadded_eq, hz]; rfl
  refine ⟨?_, ⟨rfl, rfl⟩, ?_, ?_, ?_, ?_, hp1, hp2, Sum_eq blk _ inp, Sum_eq blk _ inp,
    ⟨?_, ?_, ?_, ?_⟩, Write_ver blk { d with ver := 1 } p 2⟩
  · intro h0 h1
    obtain ⟨e1, f1, w1, v1, fw1, _⟩ := write_write_words blk { d with ver := 1 }
      (0x01 :: List.replicate (padLen d.length - 1) 0) (le64 ((8 * d.length) % 2 ^ 64))
      h0 (by show d.nx < 64; omega)
    obtain ⟨e2, f2, w2, v2, fw2, _⟩ := write_write_words blk { d with ver := 2 }
      (0x80 :: List.replicate (padLen d.length - 1) 0) (le64 ((8 * d.length) % 2 ^ 64))
      h0 (by show d.nx < 64; omega)
    refine ⟨f1, f2, ?_, ?_, fw1, fw2⟩
    · rw [hp1, w1]; exact v1
    · rw [hp2, w2]; exact v2
  · rw [sumPad_eq, hz]; rfl
  · rw [sumPad_eq, hz]; rfl
  · rw [sumLen_eq]
  · rw [sumLen_eq]
  · simp only [List.length_append, List.length_cons]
  · simp only [List.append_assoc, List.cons_append]
    exact getElem?_at_terminator _ _ _
  · simp only [List.append_assoc, List.cons_append]
    exact getElem?_at_terminator _ _ _
  · intro i hi
    simp only [List.append_assoc, List.cons_append]
    exact getElem?_off_terminator _ _ _ _ i hi

/-- Witness of C8 at the state reached from `New()` by writing three bytes:
the range condition on `nx` holds there and both copies exist. -/
theorem variants_differ_in_terminator_witness :
    (0 ≤ sampleState.nx ∧ sampleState.nx ≤ 63) ∧
    ∃ dp1 dp2, sumPadded toyBlk { sampleState with ver := 1 } = some dp1 ∧
      sumPadded toyBlk { sampleState with ver := 2 } = some dp2 ∧
      (dp1.a, dp1.b, dp1.c)
        = compressN toyBlk
            ((pending sampleState
              ++ (0x01 :: List.replicate (padLen sampleState.length - 1) 0)
              ++ le64 ((8 * sampleState.length) % 2 ^ 64)).length / 64)
            (sampleState.a, sampleState.b, sampleState.c)
            (pending sampleState
              ++ (0x01 :: List.replicate (padLen sampleState.length - 1) 0)
              ++ le64 ((8 * sampleState.length) % 2 ^ 64)) ∧
      (dp2.a, dp2.b, dp2.c)
        = compressN toyBlk
            ((pending sampleState
              ++ (0x80 :: List.replicate (padLen sampleState.length - 1) 0)
              ++ le64 ((8 * sampleState.length) % 2 ^ 64)).length / 64)
            (sampleState.a, sampleState.b, sampleState.c)
            (pending sampleState
              ++ (0x80 :: List.replicate (padLen sampleState.length - 1) 0)
              ++ le64 ((8 * sampleState.length) % 2 ^ 64)) :=
  ⟨by decide,
    (variants_differ_in_terminator toyBlk sampleState [] []).1 (by decide) (by decide)⟩

end Tiger
